import Mathlib

/-!
Verification of the Vulpes-Celare detection-and-arbitration core (Rust sources
under src/rust/src) against its natural-language specification.

Modelling conventions, used throughout:

* A Rust `String` / `&str` is modelled as `List Char` (Lean `Char` and Rust
  `char` are both Unicode scalar values).  Where convenient, Lean `String`
  literals are converted via `String.data`.
* `f64` values are modelled as `Rat`.  Every numeric literal appearing in the
  sources (50.0, 40.0, 0.9, ...) is exactly representable, and all claims
  settled here depend only on order/equality facts that are robust under this
  reading.
* `u32` / `usize` / `i32` are modelled as `Nat` / `Int`.  `saturating_sub` on
  unsigned integers is truncated subtraction, which `Nat` subtraction models
  exactly.  `saturating_add` is modelled as plain `Nat` addition: it only
  deviates at 2^32, unreachable for string lengths passed across the NAPI
  boundary.
* Rust `HashMap` / `HashSet` are modelled as association lists / lists with
  explicit first-occurrence insertion order.  Where the Rust code's behaviour
  depends on hash-iteration order, the claims settled here are order
  insensitive; this is noted at each use site.
-/

namespace Vulpes

/-- UTF-8 byte length of one character (Rust char::len_utf8). -/
def utf8Len (c : Char) : Nat :=
  if c.val < 0x80 then 1 else if c.val < 0x800 then 2
  else if c.val < 0x10000 then 3 else 4

/-- UTF-16 code-unit length of one character (Rust char::len_utf16). -/
def utf16Len (c : Char) : Nat :=
  if c.val < 0x10000 then 1 else 2

/-- Rust str::len: total UTF-8 byte length of a string. -/
def utf8Length (s : List Char) : Nat := (s.map utf8Len).sum

/-- Total UTF-16 code-unit length of a string (s.encode_utf16().count()). -/
def utf16Length (s : List Char) : Nat := (s.map utf16Len).sum

theorem utf8Len_pos (c : Char) : 0 < utf8Len c := by
  unfold utf8Len; split <;> [simp; split <;> [simp; split <;> simp]]

theorem utf16Len_pos (c : Char) : 0 < utf16Len c := by
  unfold utf16Len; split <;> simp

/-- Insert into a sorted list, after any run of elements that compare
less-or-equal. -/
def orderedInsert (le : α → α → Bool) (a : α) : List α → List α
  | [] => [a]
  | b :: l => if le a b then a :: b :: l else b :: orderedInsert le a l

/-- Stable insertion sort by a boolean less-or-equal test.  Rust's
slice::sort_by is a stable sort; for the total comparators used in these
sources any stable sort produces the same list, and insertion sort has the
advantage of reducing inside the kernel. -/
def insertionSort (le : α → α → Bool) : List α → List α
  | [] => []
  | a :: l => orderedInsert le a (insertionSort le l)

theorem mem_orderedInsert (le : α → α → Bool) (a x : α) (l : List α) :
    x ∈ orderedInsert le a l ↔ x = a ∨ x ∈ l := by
  induction l with
  | nil => simp [orderedInsert]
  | cons b t ih =>
    by_cases h : le a b = true <;> simp [orderedInsert, h, ih] <;> tauto

theorem mem_insertionSort (le : α → α → Bool) (x : α) (l : List α) :
    x ∈ insertionSort le l ↔ x ∈ l := by
  induction l with
  | nil => simp [insertionSort]
  | cons a t ih => simp [insertionSort, mem_orderedInsert, ih]

/-- Rust byte slicing s[..n] on the character-list model: take characters
while their UTF-8 bytes fit in the budget.  Used only at offsets that are
character boundaries, where it coincides with Rust slicing (a non-boundary
offset would make Rust panic; here the partial character is dropped). -/
def takeBytes : List Char → Nat → List Char
  | _, 0 => []
  | [], _ => []
  | c :: rest, b => if utf8Len c ≤ b then c :: takeBytes rest (b - utf8Len c) else []

/-- Rust byte slicing s[n..] on the character-list model; see takeBytes. -/
def dropBytes : List Char → Nat → List Char
  | s, 0 => s
  | [], _ => []
  | c :: rest, b => if utf8Len c ≤ b then dropBytes rest (b - utf8Len c) else c :: rest

-- ===========================================================================
-- lib.rs
-- ===========================================================================

namespace Lib

/-- Digit list extracted by passes_luhn: ASCII digits of the input, as values.
Source: lib.rs lines 159-163. -/
def luhnDigits (s : List Char) : List Nat :=
  (s.filter Char.isDigit).map (fun c => c.toNat - '0'.toNat)

/-- The loop body of passes_luhn (lib.rs lines 169-182): iterate the digit list
from the right with an alternating flag, doubling (and subtracting 9 above 9)
when the flag is set.  The argument list is already reversed. -/
def luhnFold : List Nat → Bool → Nat
  | [], _ => 0
  | d :: rest, flag =>
    (if flag then (if d * 2 > 9 then d * 2 - 9 else d * 2) else d) + luhnFold rest (!flag)

/-- Source translation of passes_luhn (lib.rs lines 158-185). -/
def passes_luhn (s : List Char) : Bool :=
  let digits := luhnDigits s
  if digits.isEmpty then false
  else luhnFold digits.reverse false % 10 == 0

/-- Modelled from the spec's words (C8): the arithmetic Luhn checksum on the
digit substring — double every second digit from the right, subtract 9 when
above 9, sum, check divisibility by 10.  Stated by processing the reversed
digit list two at a time, so that positions 1, 3, 5, ... from the right are
doubled; an empty digit list vacuously sums to 0, which is divisible by 10. -/
def luhnSpecSum : List Nat → Nat
  | [] => 0
  | [d] => d
  | d1 :: d2 :: rest =>
    d1 + (if d2 * 2 > 9 then d2 * 2 - 9 else d2 * 2) + luhnSpecSum rest

/-- Modelled from the spec's words (C8): the full arithmetic Luhn check on the
digit substring of the input. -/
def luhnSpecCheck (s : List Char) : Bool :=
  luhnSpecSum (luhnDigits s).reverse % 10 == 0

theorem luhnFold_eq_specSum (l : List Nat) : luhnFold l false = luhnSpecSum l := by
  induction l using luhnSpecSum.induct <;> simp [luhnFold, luhnSpecSum, *, Nat.add_assoc]

/-- C8: the claim that passes_luhn(s) equals the arithmetic Luhn check on the
digit substring of s, including when s has no digits, is false: on an input
with no digits the arithmetic checksum is vacuously 0 and divisible by 10,
but passes_luhn returns false. -/
theorem C8_counterexample :
    passes_luhn "abc".data = false ∧ luhnSpecCheck "abc".data = true := by
  constructor <;> decide

/-- C8 (amended): passes_luhn(s) equals the arithmetic Luhn check on the
digit substring of s whenever s contains at least one digit; when s contains
no digits passes_luhn returns false although the vacuous checksum holds. -/
theorem C8_amended (s : List Char) :
    (luhnDigits s ≠ [] → passes_luhn s = luhnSpecCheck s) ∧
    (luhnDigits s = [] → passes_luhn s = false ∧ luhnSpecCheck s = true) := by
  constructor
  · intro h
    rw [passes_luhn, luhnSpecCheck]
    simp only [List.isEmpty_iff, h, if_false]
    rw [luhnFold_eq_specSum]
  · intro h
    rw [passes_luhn, luhnSpecCheck, h]
    simp [luhnSpecSum]

/-- Witness for C8_amended: on an input with digits the two checks agree. -/
theorem C8_witness :
    luhnDigits "SSN 123-45-6789".data ≠ [] ∧
    passes_luhn "SSN 123-45-6789".data = luhnSpecCheck "SSN 123-45-6789".data :=
  ⟨by decide, (C8_amended "SSN 123-45-6789".data).1 (by decide)⟩

end Lib

-- ===========================================================================
-- span.rs : drop_overlapping_spans and its scoring (structure-word penalty)
-- ===========================================================================

namespace Span

/-- span.rs type_specificity (lines 25-45). -/
def type_specificity (filter_type : String) : Nat :=
  if filter_type = "SSN" then 100
  else if filter_type = "MRN" then 95
  else if filter_type = "CREDIT_CARD" then 90
  else if filter_type = "ACCOUNT" ∨ filter_type = "LICENSE" ∨ filter_type = "PASSPORT"
      ∨ filter_type = "IBAN" ∨ filter_type = "HEALTH_PLAN" then 85
  else if filter_type = "EMAIL" then 80
  else if filter_type = "PHONE" ∨ filter_type = "FAX" ∨ filter_type = "IP"
      ∨ filter_type = "URL" ∨ filter_type = "MAC_ADDRESS" ∨ filter_type = "BITCOIN" then 75
  else if filter_type = "VEHICLE" ∨ filter_type = "DEVICE" ∨ filter_type = "BIOMETRIC" then 70
  else if filter_type = "DATE" then 60
  else if filter_type = "ZIPCODE" then 55
  else if filter_type = "ADDRESS" then 50
  else if filter_type = "CITY" ∨ filter_type = "STATE" ∨ filter_type = "COUNTY" then 45
  else if filter_type = "AGE" ∨ filter_type = "RELATIVE_DATE" then 40
  else if filter_type = "PROVIDER_NAME" then 36
  else if filter_type = "NAME" then 35
  else if filter_type = "OCCUPATION" then 30
  else if filter_type = "CUSTOM" then 20
  else 25

/-- The 14 structure words of span.rs NAME_STRUCTURE_WORDS (lines 48-51), as
character lists. -/
def NAME_STRUCTURE_WORDS : List (List Char) :=
  ["DATE".data, "BIRTH".data, "RECORD".data, "NUMBER".data, "PHONE".data,
   "ADDRESS".data, "EMAIL".data, "MEMBER".data, "ACCOUNT".data, "STATUS".data,
   "DOB".data, "MRN".data, "SSN".data, "ID".data]

/-- Rust str::trim_matches with the predicate (not alphanumeric): strip
non-alphanumeric characters from both ends.  Rust char::is_alphanumeric is
Unicode-aware; Char.isAlphanum is its ASCII restriction, which coincides on
every input compared against the ASCII structure words. -/
def trimNonAlnum (w : List Char) : List Char :=
  ((w.dropWhile (fun c => ¬ c.isAlphanum)).reverse.dropWhile
    (fun c => ¬ c.isAlphanum)).reverse

/-- Helper for str::split_whitespace: split at whitespace characters,
accumulating the current word (reversed). -/
def splitWsAux : List Char → List Char → List (List Char)
  | [], acc => [acc.reverse]
  | c :: rest, acc =>
    if c.isWhitespace then acc.reverse :: splitWsAux rest []
    else splitWsAux rest (c :: acc)

/-- Rust str::split_whitespace: maximal non-whitespace runs, empties dropped. -/
def splitWhitespace (s : List Char) : List (List Char) :=
  (splitWsAux s []).filter (fun w => w ≠ [])

/-- span.rs contains_structure_word (lines 54-62).  Char.toUpper models Rust
str::to_uppercase character by character (they agree on characters whose
uppercase is a single character, in particular on all ASCII input). -/
def contains_structure_word (text : String) : Bool :=
  (splitWhitespace (text.data.map Char.toUpper)).any
    (fun w => NAME_STRUCTURE_WORDS.contains (trimNonAlnum w))

/-- span.rs calculate_score (lines 64-88), with f64 read as Rat. -/
def calculate_score (len : Nat) (confidence : ℚ) (type_spec : Nat) (priority : Nat)
    (filter_type : String) (text : Option String) : ℚ :=
  let length_score0 : ℚ := min ((len : ℚ) / 50) 1 * 40
  let length_score : ℚ :=
    if filter_type = "NAME" then
      match text with
      | some t => if contains_structure_word t then 0 else length_score0
      | none => length_score0
    else length_score0
  let confidence_score := confidence * 30
  let type_score := min ((type_spec : ℚ) / 100) 1 * 20
  let priority_score := min ((priority : ℚ) / 100) 1 * 10
  length_score + confidence_score + type_score + priority_score

end Span

-- ===========================================================================
-- interval.rs : arbitration scoring (no structure-word logic here)
-- ===========================================================================

namespace Interval

/-- interval.rs get_type_specificity (lines 15-52). -/
def get_type_specificity (filter_type : String) : Int :=
  if filter_type = "SSN" then 100
  else if filter_type = "MRN" then 95
  else if filter_type = "CREDIT_CARD" then 90
  else if filter_type = "ACCOUNT" then 85
  else if filter_type = "LICENSE" then 85
  else if filter_type = "PASSPORT" then 85
  else if filter_type = "IBAN" then 85
  else if filter_type = "HEALTH_PLAN" then 85
  else if filter_type = "EMAIL" then 80
  else if filter_type = "PHONE" then 75
  else if filter_type = "FAX" then 75
  else if filter_type = "IP" then 75
  else if filter_type = "URL" then 75
  else if filter_type = "MAC_ADDRESS" then 75
  else if filter_type = "BITCOIN" then 75
  else if filter_type = "VEHICLE" then 70
  else if filter_type = "DEVICE" then 70
  else if filter_type = "BIOMETRIC" then 70
  else if filter_type = "DATE" then 60
  else if filter_type = "ZIPCODE" then 55
  else if filter_type = "ADDRESS" then 50
  else if filter_type = "CITY" then 45
  else if filter_type = "STATE" then 45
  else if filter_type = "COUNTY" then 45
  else if filter_type = "AGE" then 40
  else if filter_type = "RELATIVE_DATE" then 40
  else if filter_type = "PROVIDER_NAME" then 36
  else if filter_type = "NAME" then 35
  else if filter_type = "OCCUPATION" then 30
  else if filter_type = "CUSTOM" then 20
  else 25

/-- interval.rs SpanInput (lines 54-63): i32 offsets as Int, f64 confidence as
Rat. -/
structure SpanInput where
  character_start : Int
  character_end : Int
  filter_type : String
  confidence : ℚ
  priority : Int
  text : String
deriving DecidableEq, Repr

/-- interval.rs calculate_span_score (lines 72-87).  Note: this function has
no structure-word handling; the length term is always present. -/
def calculate_span_score (span : SpanInput) : ℚ :=
  let type_specificity := get_type_specificity span.filter_type
  let length : ℚ := ((span.character_end - span.character_start : Int) : ℚ)
  let length_score := min (length / 50) 1 * 40
  let confidence_score := span.confidence * 30
  let type_score := (type_specificity : ℚ) / 100 * 20
  let priority_score := min ((span.priority : ℚ) / 100) 1 * 10
  length_score + confidence_score + type_score + priority_score

/-- interval.rs spans_overlap (lines 90-92). -/
def spans_overlap (a b : SpanInput) : Bool :=
  ¬ (a.character_end ≤ b.character_start ∨ a.character_start ≥ b.character_end)

/-- interval.rs span_contains (lines 95-97): a contains b. -/
def span_contains (a b : SpanInput) : Bool :=
  a.character_start ≤ b.character_start ∧ a.character_end ≥ b.character_end

/-- Key of exact-duplicate collapse (interval.rs line 113): format of
(start, end, filter_type) as a dash-joined string. -/
def spanKey (s : SpanInput) : String :=
  toString s.character_start ++ "-" ++ toString s.character_end ++ "-" ++ s.filter_type

/-- HashMap::insert into the duplicate-collapse map (interval.rs lines
111-124), modelled as an association list in first-occurrence order; the claim
settled over the output is insensitive to the hash-iteration order of
into_values. -/
def dedupInsert : List (String × Nat × SpanInput) → String → Nat × SpanInput →
    List (String × Nat × SpanInput)
  | [], k, v => [(k, v)]
  | (k', v') :: rest, k, v =>
    if k' = k then
      (if v'.2.confidence < v.2.confidence then (k, v) :: rest else (k', v') :: rest)
    else (k', v') :: dedupInsert rest k v

/-- STEP 1 of drop_overlapping_spans_fast: collapse exact duplicates keeping
the highest-confidence member (first occurrence wins ties). -/
def dedupSpans (spans : List SpanInput) : List (Nat × SpanInput) :=
  (spans.enum.foldl (fun acc p => dedupInsert acc (spanKey p.2) p) []).map (·.2)

/-- STEP 2 comparator (interval.rs lines 136-148): score descending, then
start ascending, then length descending; mergeSort with this le-test models
the stable Rust sort_by. -/
def scoreLe (a b : Nat × SpanInput × ℚ) : Bool :=
  if a.2.2 > b.2.2 then true
  else if a.2.2 < b.2.2 then false
  else if a.2.1.character_start < b.2.1.character_start then true
  else if a.2.1.character_start > b.2.1.character_start then false
  else (a.2.1.character_end - a.2.1.character_start) ≥
       (b.2.1.character_end - b.2.1.character_start)

/-- Outcome of one inner pass over the kept list (interval.rs lines 157-191). -/
inductive Decision where
  | keep
  | drop
  | replaceAt (i : Nat)
deriving DecidableEq, Repr

/-- Shift a replacement index past one kept element. -/
def Decision.shift : Decision → Decision
  | .replaceAt i => .replaceAt (i + 1)
  | d => d

/-- The inner loop of STEP 3 (interval.rs lines 157-191): walk the kept list;
the first overlapping element decides, except that a new span containing a
kept span of strictly lower specificity lets the walk continue. -/
def scanKept (span : SpanInput) : List (Nat × SpanInput) → Decision
  | [] => .keep
  | (_, existing) :: rest =>
    if ¬ spans_overlap span existing then (scanKept span rest).shift
    else
      if span_contains span existing then
        (if get_type_specificity span.filter_type ≤ get_type_specificity existing.filter_type
         then .drop
         else (scanKept span rest).shift)
      else if span_contains existing span then
        (if get_type_specificity span.filter_type > get_type_specificity existing.filter_type
            ∧ span.confidence ≥ 9/10
         then .replaceAt 0
         else .drop)
      else .drop

/-- One iteration of the outer STEP 3 loop (interval.rs lines 193-198). -/
def greedyStep (kept : List (Nat × SpanInput)) (cand : Nat × SpanInput) :
    List (Nat × SpanInput) :=
  match scanKept cand.2 kept with
  | .replaceAt i => kept.set i cand
  | .keep => kept ++ [cand]
  | .drop => kept

/-- interval.rs drop_overlapping_spans_fast (lines 102-204). -/
def drop_overlapping_spans_fast (spans : List SpanInput) : List Nat :=
  if spans.isEmpty then []
  else if spans.length = 1 then [0]
  else
    match (dedupSpans spans).map (fun p => (p.1, p.2, calculate_span_score p.2)) with
    | [single] => [single.1]
    | scored =>
      (insertionSort (fun a b => a.2.character_start ≤ b.2.character_start)
        ((insertionSort scoreLe scored).foldl (fun k t => greedyStep k (t.1, t.2.1)) [])).map
        (·.1)

theorem spans_overlap_symm (a b : SpanInput) : spans_overlap a b = spans_overlap b a := by
  simp only [spans_overlap, decide_eq_decide]
  tauto

theorem overlap_iff {a b : SpanInput} : spans_overlap a b = true ↔
    (b.character_start < a.character_end ∧ a.character_start < b.character_end) := by
  simp [spans_overlap]

theorem contains_iff {a b : SpanInput} : span_contains a b = true ↔
    (a.character_start ≤ b.character_start ∧ b.character_end ≤ a.character_end) := by
  simp [span_contains]

theorem overlap_of_contains {k c x : SpanInput} (h1 : span_contains k c = true)
    (h2 : spans_overlap c x = true) : spans_overlap k x = true := by
  rw [overlap_iff] at *
  rw [contains_iff] at h1
  omega

theorem contains_trans {a b c : SpanInput} (h1 : span_contains a b = true)
    (h2 : span_contains b c = true) : span_contains a c = true := by
  rw [contains_iff] at *
  omega

theorem shift_eq_keep {d : Decision} : d.shift = .keep ↔ d = .keep := by
  cases d <;> simp [Decision.shift]

theorem shift_eq_replaceAt {d : Decision} {r : Nat} :
    d.shift = .replaceAt r ↔ ∃ r', r = r' + 1 ∧ d = .replaceAt r' := by
  cases d <;> simp [Decision.shift]
  omega

/-- If the inner pass keeps the candidate span, every kept span it overlaps is
contained in it. -/
theorem scanKept_keep {s : SpanInput} {l : List (Nat × SpanInput)}
    (h : scanKept s l = .keep) :
    ∀ x ∈ l, spans_overlap s x.2 = true → span_contains s x.2 = true := by
  induction l with
  | nil => intro x hx; simp at hx
  | cons hd tl ih =>
    intro x hx hov
    obtain ⟨n, e⟩ := hd
    rw [scanKept] at h
    split at h
    case isTrue hno =>
      have hk := shift_eq_keep.mp h
      rcases List.mem_cons.mp hx with hx1 | hx2
      · subst hx1; exact absurd hov (by simpa using hno)
      · exact ih hk x hx2 hov
    case isFalse hno =>
      split at h
      case isTrue hc =>
        split at h
        case isTrue => simp at h
        case isFalse =>
          have hk := shift_eq_keep.mp h
          rcases List.mem_cons.mp hx with hx1 | hx2
          · subst hx1; exact hc
          · exact ih hk x hx2 hov
      case isFalse hc =>
        split at h
        case isTrue =>
          split at h
          · simp at h
          · simp at h
        case isFalse => simp at h

/-- If the inner pass replaces the kept span at position r, that span contains
the candidate, and every kept span before position r that the candidate
overlaps is contained in the candidate. -/
theorem scanKept_replace {s : SpanInput} {l : List (Nat × SpanInput)} {r : Nat}
    (h : scanKept s l = .replaceAt r) :
    ∃ a, l[r]? = some a ∧ span_contains a.2 s = true ∧
      (∀ i x, i < r → l[i]? = some x → spans_overlap s x.2 = true →
        span_contains s x.2 = true) := by
  induction l generalizing r with
  | nil => simp [scanKept] at h
  | cons hd tl ih =>
    obtain ⟨n, e⟩ := hd
    rw [scanKept] at h
    split at h
    case isTrue hno =>
      obtain ⟨r', hr, hd'⟩ := shift_eq_replaceAt.mp h
      obtain ⟨a, ha1, ha2, ha3⟩ := ih hd'
      subst hr
      refine ⟨a, by simpa using ha1, ha2, ?_⟩
      intro i x hi hget hov
      match i with
      | 0 =>
        simp at hget
        subst hget
        exact absurd hov (by simpa using hno)
      | i' + 1 =>
        exact ha3 i' x (by omega) (by simpa using hget) hov
    case isFalse hno =>
      split at h
      case isTrue hc =>
        split at h
        case isTrue => simp at h
        case isFalse =>
          obtain ⟨r', hr, hd'⟩ := shift_eq_replaceAt.mp h
          obtain ⟨a, ha1, ha2, ha3⟩ := ih hd'
          subst hr
          refine ⟨a, by simpa using ha1, ha2, ?_⟩
          intro i x hi hget hov
          match i with
          | 0 =>
            simp at hget
            subst hget
            exact hc
          | i' + 1 =>
            exact ha3 i' x (by omega) (by simpa using hget) hov
      case isFalse hc =>
        split at h
        case isTrue hcb =>
          split at h
          case isTrue hcond =>
            simp only [Decision.replaceAt.injEq] at h
            subst h
            exact ⟨(n, e), by simp, hcb, fun i x hi _ _ => absurd hi (by omega)⟩
          case isFalse => simp at h
        case isFalse => simp at h

/-- Kept-list invariant of the greedy pass: a later kept span overlapping an
earlier kept span contains it. -/
def PairContain (l : List (Nat × SpanInput)) : Prop :=
  ∀ (i j : Nat) (a b : Nat × SpanInput), i < j → l[i]? = some a → l[j]? = some b →
    spans_overlap a.2 b.2 = true → span_contains b.2 a.2 = true

theorem mem_of_get? {α : Type} {l : List α} {i : Nat} {a : α} (h : l[i]? = some a) :
    a ∈ l := by
  obtain ⟨hl, he⟩ := List.getElem?_eq_some.mp h
  exact he ▸ List.getElem_mem hl

theorem get?_of_mem {α : Type} {l : List α} {a : α} (h : a ∈ l) :
    ∃ i : Nat, l[i]? = some a := by
  obtain ⟨n, hn, he⟩ := List.getElem_of_mem h
  exact ⟨n, by rw [List.getElem?_eq_getElem hn, he]⟩

theorem lt_length_of_get? {α : Type} {l : List α} {i : Nat} {a : α}
    (h : l[i]? = some a) : i < l.length :=
  (List.getElem?_eq_some.mp h).1

theorem greedyStep_pairContain {l : List (Nat × SpanInput)} (hl : PairContain l)
    (c : Nat × SpanInput) : PairContain (greedyStep l c) := by
  unfold greedyStep
  rcases hscan : scanKept c.2 l with _ | _ | r
  · show PairContain (l ++ [c])
    intro i j a b hij hi hj hov
    have hjlen : j < l.length + 1 := by
      have := lt_length_of_get? hj
      simpa using this
    by_cases hjl : j < l.length
    · have hil : i < l.length := lt_trans hij hjl
      rw [List.getElem?_append, if_pos hil] at hi
      rw [List.getElem?_append, if_pos hjl] at hj
      exact hl i j a b hij hi hj hov
    · have hjeq : j = l.length := by omega
      subst hjeq
      have hil : i < l.length := hij
      rw [List.getElem?_append, if_pos hil] at hi
      have hb : b = c := by
        have hcl := List.getElem?_concat_length l c
        rw [hj] at hcl
        exact Option.some_inj.mp hcl
      subst hb
      have hmem : a ∈ l := mem_of_get? hi
      have := scanKept_keep hscan a hmem
      rw [spans_overlap_symm] at this
      exact this hov
  · show PairContain l
    exact hl
  · obtain ⟨a0, ha0, hcont0, hpre⟩ := scanKept_replace hscan
    have hrlen : r < l.length := lt_length_of_get? ha0
    show PairContain (l.set r c)
    intro i j a b hij hi hj hov
    by_cases hir : i = r
    · subst hir
      have hij' : i ≠ j := by omega
      rw [List.getElem?_set_ne hij'] at hj
      have ha : a = c := by
        rw [List.getElem?_set_self hrlen] at hi
        exact (Option.some_inj.mp hi).symm
      subst ha
      have hov0 : spans_overlap a0.2 b.2 = true := overlap_of_contains hcont0 hov
      have hcb : span_contains b.2 a0.2 = true := hl i j a0 b hij ha0 hj hov0
      exact contains_trans hcb hcont0
    · by_cases hjr : j = r
      · subst hjr
        have hji : j ≠ i := fun h => hir h.symm
        rw [List.getElem?_set_ne hji] at hi
        have hb : b = c := by
          rw [List.getElem?_set_self hrlen] at hj
          exact (Option.some_inj.mp hj).symm
        subst hb
        have := hpre i a hij hi
        rw [spans_overlap_symm] at hov
        exact this hov
      · have hir' : r ≠ i := fun h => hir h.symm
        have hjr' : r ≠ j := fun h => hjr h.symm
        rw [List.getElem?_set_ne hir'] at hi
        rw [List.getElem?_set_ne hjr'] at hj
        exact hl i j a b hij hi hj hov

theorem foldl_greedy_pairContain (ts : List (Nat × SpanInput × ℚ))
    (acc : List (Nat × SpanInput)) (hacc : PairContain acc) :
    PairContain (ts.foldl (fun k t => greedyStep k (t.1, t.2.1)) acc) := by
  induction ts generalizing acc with
  | nil => exact hacc
  | cons t ts ih => exact ih _ (greedyStep_pairContain hacc (t.1, t.2.1))

/-- An entry of the kept list records an index into the input list together
with the span stored there. -/
def GoodFor (spans : List SpanInput) (p : Nat × SpanInput) : Prop :=
  spans[p.1]? = some p.2

theorem mem_dedupInsert {acc : List (String × Nat × SpanInput)} {k : String}
    {v : Nat × SpanInput} {q : String × Nat × SpanInput} (h : q ∈ dedupInsert acc k v) :
    q ∈ acc ∨ q.2 = v := by
  induction acc with
  | nil =>
    simp [dedupInsert] at h
    subst h
    exact Or.inr rfl
  | cons hd tl ih =>
    obtain ⟨k', v'⟩ := hd
    rw [dedupInsert] at h
    split at h
    · split at h
      · rcases List.mem_cons.mp h with h1 | h2
        · subst h1; exact Or.inr rfl
        · exact Or.inl (List.mem_cons_of_mem _ h2)
      · exact Or.inl h
    · rcases List.mem_cons.mp h with h1 | h2
      · subst h1; exact Or.inl (List.mem_cons_self _ _)
      · rcases ih h2 with h3 | h3
        · exact Or.inl (List.mem_cons_of_mem _ h3)
        · exact Or.inr h3

theorem foldl_dedup_good (spans : List SpanInput) (ps : List (Nat × SpanInput))
    (acc : List (String × Nat × SpanInput))
    (hacc : ∀ q ∈ acc, GoodFor spans q.2) (hps : ∀ p ∈ ps, GoodFor spans p) :
    ∀ q ∈ ps.foldl (fun acc p => dedupInsert acc (spanKey p.2) p) acc,
      GoodFor spans q.2 := by
  induction ps generalizing acc with
  | nil => exact hacc
  | cons p ps ih =>
    refine ih _ ?_ (fun x hx => hps x (List.mem_cons_of_mem _ hx))
    intro q hq
    rcases mem_dedupInsert hq with h1 | h2
    · exact hacc q h1
    · rw [h2]
      exact hps p (List.mem_cons_self _ _)

theorem dedupSpans_good (spans : List SpanInput) :
    ∀ p ∈ dedupSpans spans, GoodFor spans p := by
  intro p hp
  unfold dedupSpans at hp
  obtain ⟨q, hq, hqe⟩ := List.mem_map.mp hp
  have hgood := foldl_dedup_good spans spans.enum [] (by simp) ?_ q hq
  · rw [← hqe]; exact hgood
  · intro x hx
    rcases x with ⟨i, s⟩
    simpa [GoodFor] using List.mem_enum_iff_getElem?.mp hx

theorem greedyStep_good {spans : List SpanInput} {l : List (Nat × SpanInput)}
    {c : Nat × SpanInput} (hl : ∀ p ∈ l, GoodFor spans p) (hc : GoodFor spans c) :
    ∀ p ∈ greedyStep l c, GoodFor spans p := by
  unfold greedyStep
  rcases scanKept c.2 l with _ | _ | r
  · intro p hp
    rcases List.mem_append.mp hp with h1 | h2
    · exact hl p h1
    · simp at h2; subst h2; exact hc
  · exact hl
  · intro p hp
    rcases List.mem_or_eq_of_mem_set hp with h1 | h2
    · exact hl p h1
    · subst h2; exact hc

theorem foldl_greedy_good {spans : List SpanInput} (ts : List (Nat × SpanInput × ℚ))
    (acc : List (Nat × SpanInput)) (hacc : ∀ p ∈ acc, GoodFor spans p)
    (hts : ∀ t ∈ ts, GoodFor spans (t.1, t.2.1)) :
    ∀ p ∈ ts.foldl (fun k t => greedyStep k (t.1, t.2.1)) acc, GoodFor spans p := by
  induction ts generalizing acc with
  | nil => exact hacc
  | cons t ts ih =>
    exact ih _ (greedyStep_good hacc (hts t (List.mem_cons_self _ _)))
      (fun x hx => hts x (List.mem_cons_of_mem _ hx))

/-- A NAME span with a high score (kept first by the greedy pass). -/
def cexNameSpan : SpanInput := ⟨0, 5, "NAME", 1, 100, "a"⟩

/-- An SSN span with a lower score that contains the NAME span; its higher
specificity makes the inner pass continue instead of dropping it, so both
spans are kept. -/
def cexSsnSpan : SpanInput := ⟨0, 6, "SSN", 0, 0, "b"⟩

theorem cex_eval : drop_overlapping_spans_fast [cexNameSpan, cexSsnSpan] = [0, 1] := by
  have hD : dedupSpans [cexNameSpan, cexSsnSpan] = [(0, cexNameSpan), (1, cexSsnSpan)] := rfl
  have h1 : calculate_span_score cexNameSpan = 51 := by
    simp [calculate_span_score, get_type_specificity, cexNameSpan, min_def]
    norm_num
  have h2 : calculate_span_score cexSsnSpan = 124/5 := by
    simp [calculate_span_score, get_type_specificity, cexSsnSpan, min_def]
    norm_num
  have hle : scoreLe (0, cexNameSpan, (51:ℚ)) (1, cexSsnSpan, (124:ℚ)/5) = true := by
    simp only [scoreLe]
    norm_num
  have hsort1 : insertionSort scoreLe [(0, cexNameSpan, (51:ℚ)), (1, cexSsnSpan, (124:ℚ)/5)]
      = [(0, cexNameSpan, (51:ℚ)), (1, cexSsnSpan, (124:ℚ)/5)] := by
    simp [insertionSort, orderedInsert, hle]
  have hgreedy : List.foldl (fun k t => greedyStep k (t.1, t.2.1)) []
      [(0, cexNameSpan, (51:ℚ)), (1, cexSsnSpan, (124:ℚ)/5)]
      = [(0, cexNameSpan), (1, cexSsnSpan)] := by decide
  have hsort2 : insertionSort (fun a b => a.2.character_start ≤ b.2.character_start)
      [(0, cexNameSpan), (1, cexSsnSpan)] = [(0, cexNameSpan), (1, cexSsnSpan)] := by decide
  simp only [drop_overlapping_spans_fast, hD, List.map_cons, List.map_nil, h1, h2]
  simp only [hsort1, hgreedy, hsort2]
  decide

/-- C1: the claim that the output of drop_overlapping_spans_fast is pairwise
non-overlapping is false: on the concrete input below both indices 0 and 1 are
kept, yet the span at 0 does not end at or before the span at 1 starts, nor
vice versa — the two kept spans overlap. -/
theorem C1_counterexample :
    drop_overlapping_spans_fast [cexNameSpan, cexSsnSpan] = [0, 1] ∧
    [cexNameSpan, cexSsnSpan][0]? = some cexNameSpan ∧
    [cexNameSpan, cexSsnSpan][1]? = some cexSsnSpan ∧
    ¬ (cexNameSpan.character_end ≤ cexSsnSpan.character_start ∨
       cexSsnSpan.character_end ≤ cexNameSpan.character_start) :=
  ⟨cex_eval, rfl, rfl, by decide⟩

/-- C1 (amended): for any input list of spans and any two distinct kept
indices i and j of drop_overlapping_spans_fast, either the span at i ends at
or before the span at j starts (or vice versa), or one of the two spans
contains the other. -/
theorem C1_amended (spans : List SpanInput) :
    ∀ (i j : Nat) (a b : SpanInput), i ∈ drop_overlapping_spans_fast spans →
      j ∈ drop_overlapping_spans_fast spans → i ≠ j →
      spans[i]? = some a → spans[j]? = some b →
      spans_overlap a b = true →
      span_contains a b = true ∨ span_contains b a = true := by
  rw [drop_overlapping_spans_fast]
  split
  · intro i j a b hi
    simp at hi
  · split
    · intro i j a b hi hj hne
      simp at hi hj
      omega
    · split
      · intro i j a b hi hj hne
        simp at hi hj
        omega
      · intro i j a b hi hj hne ha hb hov
        obtain ⟨p, hpmem, hpi⟩ := List.mem_map.mp hi
        obtain ⟨q, hqmem, hqj⟩ := List.mem_map.mp hj
        rw [mem_insertionSort] at hpmem hqmem
        have hgoodts : ∀ t ∈ insertionSort scoreLe
            ((dedupSpans spans).map (fun p => (p.1, p.2, calculate_span_score p.2))),
            GoodFor spans (t.1, t.2.1) := by
          intro t ht
          rw [mem_insertionSort] at ht
          obtain ⟨r, hr, hre⟩ := List.mem_map.mp ht
          have hgr := dedupSpans_good spans r hr
          rw [← hre]
          simpa [GoodFor] using hgr
        have hgood := foldl_greedy_good
          (insertionSort scoreLe
            ((dedupSpans spans).map (fun p => (p.1, p.2, calculate_span_score p.2))))
          [] (by simp) hgoodts
        have hPC : PairContain ((insertionSort scoreLe
            ((dedupSpans spans).map (fun p => (p.1, p.2, calculate_span_score p.2)))).foldl
            (fun k t => greedyStep k (t.1, t.2.1)) []) := by
          apply foldl_greedy_pairContain
          intro i' j' a' b' _ h'
          simp at h'
        have hpa : p.2 = a := by
          have hg := hgood p hpmem
          rw [GoodFor, hpi, ha] at hg
          exact (Option.some_inj.mp hg).symm
        have hqb : q.2 = b := by
          have hg := hgood q hqmem
          rw [GoodFor, hqj, hb] at hg
          exact (Option.some_inj.mp hg).symm
        obtain ⟨np, hnp⟩ := get?_of_mem hpmem
        obtain ⟨nq, hnq⟩ := get?_of_mem hqmem
        have hnpq : np ≠ nq := by
          intro hEq
          rw [hEq, hnq] at hnp
          have hqp : q = p := Option.some_inj.mp hnp
          rw [← hpi, ← hqj, hqp] at hne
          exact hne rfl
        rcases Nat.lt_or_ge np nq with hlt | hge
        · right
          have hc := hPC np nq p q hlt hnp hnq
          rw [hpa, hqb] at hc
          exact hc hov
        · left
          have hgt : nq < np := by omega
          have hc := hPC nq np q p hgt hnq hnp
          rw [hpa, hqb] at hc
          rw [spans_overlap_symm] at hov
          exact hc hov

/-- Witness for C1_amended at the concrete counterexample input: both indices
are kept, the spans overlap, and indeed one contains the other. -/
theorem C1_witness :
    span_contains cexNameSpan cexSsnSpan = true ∨
    span_contains cexSsnSpan cexNameSpan = true :=
  C1_amended [cexNameSpan, cexSsnSpan] 0 1 cexNameSpan cexSsnSpan
    (by rw [cex_eval]; decide) (by rw [cex_eval]; decide) (by decide) rfl rfl (by decide)

/-- A NAME span whose text is the structure word DATE.  interval.rs
calculate_span_score has no structure-word handling, so its length term is
not zeroed. -/
def cexStructSpan : SpanInput := ⟨0, 4, "NAME", 9/10, 100, "DATE"⟩

/-- C2: false for interval.rs calculate_span_score — for a NAME span whose
text contains a structure word, the score is not
30·confidence + 20·specificity/100 + 10·min(priority/100, 1): the length
contribution 40·min(length/50, 1) is still added (score 47.2 rather than
44). -/
theorem C2_counterexample :
    Span.contains_structure_word cexStructSpan.text = true ∧
    calculate_span_score cexStructSpan ≠
      30 * cexStructSpan.confidence +
      20 * ((get_type_specificity cexStructSpan.filter_type : ℚ)) / 100 +
      10 * min ((cexStructSpan.priority : ℚ) / 100) 1 := by
  refine ⟨by decide, ?_⟩
  have h : calculate_span_score cexStructSpan = 236/5 := by
    simp [calculate_span_score, get_type_specificity, cexStructSpan, min_def]
    norm_num
  rw [h]
  simp [get_type_specificity, cexStructSpan, min_def]
  norm_num

end Interval

namespace Span

/-- C2 (amended): the structure-word zeroing lives in span.rs calculate_score
(used by drop_overlapping_spans), not in interval.rs calculate_span_score:
for every NAME span whose text contains a structure word, the length
contribution is zero and the score equals
30·confidence + 20·specificity/100 + 10·min(priority/100, 1). -/
theorem C2_amended (len : Nat) (confidence : ℚ) (priority : Nat) (text : String)
    (h : contains_structure_word text = true) :
    calculate_score len confidence (type_specificity "NAME") priority "NAME" (some text) =
      30 * confidence + 20 * ((type_specificity "NAME" : ℚ)) / 100 +
      10 * min ((priority : ℚ) / 100) 1 := by
  simp [calculate_score, type_specificity, h]
  norm_num [min_def]
  ring

/-- Witness for C2_amended on the structure word DATE with confidence 1/2. -/
theorem C2_witness :
    contains_structure_word "DATE" = true ∧
    calculate_score 10 (1/2) (type_specificity "NAME") 0 "NAME" (some "DATE") =
      30 * ((1:ℚ)/2) + 20 * ((type_specificity "NAME" : ℚ)) / 100 +
      10 * min (((0:Nat) : ℚ) / 100) 1 :=
  ⟨by decide, C2_amended 10 (1/2) 0 "DATE" (by decide)⟩

end Span

-- ===========================================================================
-- interval.rs : VulpesIntervalTree (lines 260-609)
-- ===========================================================================

namespace IntervalTree

/-- interval.rs StoredSpan (lines 262-270); the Rust field named end is
rendered endPos (end is a Lean keyword). -/
structure StoredSpan where
  key : String
  start : Int
  endPos : Int
  filter_type : String
  confidence : ℚ
  priority : Int
  text : String

/-- interval.rs SpanData (lines 275-282). -/
structure SpanData where
  character_start : Int
  character_end : Int
  filter_type : String
  confidence : ℚ
  priority : Int
  text : String

/-- interval.rs IntervalNode (lines 286-293); leaf models the absent child
(Option::None). -/
inductive IntervalNode where
  | leaf
  | node (start endPos maxEnd : Int) (spans : List StoredSpan)
      (left right : IntervalNode)

/-- IntervalNode::update_max (lines 308-316): recompute max_end from this
node's end and the children's max_end values. -/
def updateMax : IntervalNode → IntervalNode
  | .leaf => .leaf
  | .node s e _ sps l r =>
    let m1 := match l with
      | .leaf => e
      | .node _ _ lm _ _ _ => max e lm
    let m2 := match r with
      | .leaf => m1
      | .node _ _ rm _ _ _ => max m1 rm
    .node s e m2 sps l r

/-- IntervalNode::insert (lines 319-342).  Inserting into an absent child
creates the one-node subtree, exactly as IntervalNode::new does in Rust. -/
def nodeInsert : IntervalNode → Int → Int → StoredSpan → IntervalNode
  | .leaf, s, e, sp => .node s e e [sp] .leaf .leaf
  | .node ns ne me sps l r, s, e, sp =>
    if s = ns ∧ e = ne then .node ns ne me (sps ++ [sp]) l r
    else if s < ns ∨ (s = ns ∧ e < ne) then
      updateMax (.node ns ne me sps (nodeInsert l s e sp) r)
    else
      updateMax (.node ns ne me sps l (nodeInsert r s e sp))

/-- IntervalNode::remove (lines 367-392): drop every span with the given key
from the node holding the interval; returns whether something was removed. -/
def nodeRemove : IntervalNode → Int → Int → String → IntervalNode × Bool
  | .leaf, _, _, _ => (.leaf, false)
  | .node ns ne me sps l r, s, e, key =>
    if s = ns ∧ e = ne then
      let sps' := sps.filter (fun sp => sp.key ≠ key)
      (.node ns ne me sps' l r, sps'.length < sps.length)
    else if s < ns ∨ (s = ns ∧ e < ne) then
      let res := nodeRemove l s e key
      (if res.2 then updateMax (.node ns ne me sps res.1 r)
       else .node ns ne me sps res.1 r, res.2)
    else
      let res := nodeRemove r s e key
      (if res.2 then updateMax (.node ns ne me sps l res.1)
       else .node ns ne me sps l res.1, res.2)

/-- IntervalNode::collect_all (lines 395-403). -/
def collectAll : IntervalNode → List StoredSpan
  | .leaf => []
  | .node _ _ _ sps l r => sps ++ collectAll l ++ collectAll r

/-- interval.rs IntervalTreeState (lines 407-411); span_map models the
HashMap as an association list in insertion order with key overwrite. -/
structure IntervalTreeState where
  root : IntervalNode
  span_map : List (String × StoredSpan)
  size : Nat

/-- An empty tree (IntervalTreeState::new, lines 414-420). -/
def IntervalTreeState.empty : IntervalTreeState := ⟨.leaf, [], 0⟩

/-- HashMap::insert with overwrite on an existing key. -/
def mapInsert : List (String × StoredSpan) → String → StoredSpan →
    List (String × StoredSpan)
  | [], k, v => [(k, v)]
  | (k', v') :: rest, k, v =>
    if k' = k then (k, v) :: rest else (k', v') :: mapInsert rest k v

/-- HashMap::remove returning the removed value. -/
def mapRemove : List (String × StoredSpan) → String →
    Option StoredSpan × List (String × StoredSpan)
  | [], _ => (none, [])
  | (k', v') :: rest, k =>
    if k' = k then (some v', rest)
    else
      let res := mapRemove rest k
      (res.1, (k', v') :: res.2)

/-- VulpesIntervalTree::generate_key (lines 444-449). -/
def generate_key (span : SpanData) : String :=
  toString span.character_start ++ "-" ++ toString span.character_end ++ "-" ++
    span.filter_type ++ "-" ++ span.text

/-- VulpesIntervalTree::insert (lines 453-480): store in the map, insert into
the tree, and increment size unconditionally. -/
def insert (st : IntervalTreeState) (span : SpanData) : String × IntervalTreeState :=
  let key := generate_key span
  let stored : StoredSpan :=
    ⟨key, span.character_start, span.character_end, span.filter_type,
     span.confidence, span.priority, span.text⟩
  (key, ⟨nodeInsert st.root stored.start stored.endPos stored,
         mapInsert st.span_map key stored, st.size + 1⟩)

/-- VulpesIntervalTree::remove_by_key (lines 540-552): size is decremented
exactly when the key was present in the map, regardless of how many stored
copies the tree nodes held. -/
def remove_by_key (st : IntervalTreeState) (key : String) : Bool × IntervalTreeState :=
  match mapRemove st.span_map key with
  | (some stored, map') =>
    (true, ⟨(nodeRemove st.root stored.start stored.endPos key).1, map', st.size - 1⟩)
  | (none, _) => (false, st)

/-- VulpesIntervalTree::get_all_spans (lines 563-579): reads the span map,
not the tree nodes. -/
def get_all_spans (st : IntervalTreeState) : List SpanData :=
  st.span_map.map (fun p =>
    ⟨p.2.start, p.2.endPos, p.2.filter_type, p.2.confidence, p.2.priority, p.2.text⟩)

/-- VulpesIntervalTree::size (lines 582-586). -/
def size (st : IntervalTreeState) : Nat := st.size

/-- C9: inserting the same span twice makes size() report 2 while
get_all_spans() returns the single map entry; one remove_by_key deletes both
stored copies from the tree nodes yet size() becomes 1 — size counts inserts
minus successful removes, not distinct stored keys. -/
theorem C9_duplicate_insert_remove (span : SpanData) :
    size ((insert (insert IntervalTreeState.empty span).2 span).2) = 2 ∧
    get_all_spans ((insert (insert IntervalTreeState.empty span).2 span).2) = [span] ∧
    (collectAll ((insert (insert IntervalTreeState.empty span).2 span).2).root).length = 2 ∧
    size ((remove_by_key ((insert (insert IntervalTreeState.empty span).2 span).2)
      (generate_key span)).2) = 1 ∧
    collectAll ((remove_by_key ((insert (insert IntervalTreeState.empty span).2 span).2)
      (generate_key span)).2).root = [] := by
  simp [size, get_all_spans, insert, remove_by_key, IntervalTreeState.empty,
    nodeInsert, nodeRemove, mapInsert, mapRemove, collectAll, updateMax]

end IntervalTree

-- ===========================================================================
-- streaming.rs : VulpesStreamingKernel
-- ===========================================================================

namespace Streaming

/-- Loop body of streaming.rs byte_index_at_utf16 (lines 7-23): walk
char_indices accumulating byte and UTF-16 positions. -/
def byteIndexAtUtf16Go : List Char → Nat → Nat → Nat → Nat
  | [], bytePos, _, _ => bytePos
  | c :: rest, bytePos, u16pos, target =>
    let next := u16pos + utf16Len c
    if next > target then bytePos
    else if next = target then bytePos + utf8Len c
    else byteIndexAtUtf16Go rest (bytePos + utf8Len c) next target

/-- streaming.rs byte_index_at_utf16 (lines 7-23); at loop exhaustion the
accumulated byte position equals s.len(). -/
def byte_index_at_utf16 (s : List Char) (target : Nat) : Nat :=
  if target = 0 then 0 else byteIndexAtUtf16Go s 0 0 target

/-- streaming.rs VulpesStreamingKernel state (lines 32-42). -/
structure KernelState where
  buffer : List Char
  mode : String
  buffer_size : Nat
  overlap : Nat
  buffer_len_utf16 : Nat
  last_sentence_end_utf16 : Nat
  last_whitespace_utf16 : Nat
  prev_char : Option Char

/-- VulpesStreamingKernel::new (lines 46-58). -/
def KernelState.new (mode : String) (buffer_size overlap : Nat) : KernelState :=
  ⟨[], mode, max buffer_size 1, overlap, 0, 0, 0, none⟩

/-- One iteration of the character loop in push (lines 75-91). -/
def pushChar (st : KernelState) (ch : Char) : KernelState :=
  let next := st.buffer_len_utf16 + utf16Len ch
  let lw := if ch.isWhitespace then next else st.last_whitespace_utf16
  let ls := match st.prev_char with
    | some prev =>
      if (prev = '.' ∨ prev = '!' ∨ prev = '?') ∧ ch.isWhitespace
      then st.buffer_len_utf16 else st.last_sentence_end_utf16
    | none => st.last_sentence_end_utf16
  { st with
      last_whitespace_utf16 := lw
      last_sentence_end_utf16 := ls
      prev_char := some ch
      buffer_len_utf16 := next }

/-- VulpesStreamingKernel::push (lines 70-94). -/
def push (st : KernelState) (chunk : List Char) : KernelState :=
  if chunk.isEmpty then st
  else { chunk.foldl pushChar st with buffer := st.buffer ++ chunk }

/-- The flush-point computation of pop_segment (streaming.rs lines 115-138),
including the safety valve. -/
def flushPointOf (st : KernelState) (force : Bool) : Nat :=
  let fp0 : Nat :=
    if force then st.buffer_len_utf16
    else if st.mode = "sentence" then
      (if st.last_sentence_end_utf16 > 0 then st.last_sentence_end_utf16 else 0)
    else if st.buffer_len_utf16 ≥ st.buffer_size then
      (if st.last_whitespace_utf16 > 0 ∧ st.last_whitespace_utf16 ≤ st.buffer_size
       then st.last_whitespace_utf16 else st.buffer_size)
    else 0
  if ¬ force ∧ fp0 = 0 ∧ st.buffer_len_utf16 ≥ st.buffer_size * 2
  then st.buffer_size else fp0

/-- The stable end after overlap retention (streaming.rs lines 144-148). -/
def stableEndOf (st : KernelState) (force : Bool) : Nat :=
  if force then flushPointOf st force else flushPointOf st force - st.overlap

/-- The emitting tail of pop_segment (streaming.rs lines 154-174), reached
only when the stable end is positive. -/
def popEmit (st : KernelState) (force : Bool) : Option (List Char) × KernelState :=
  let byte_end := byte_index_at_utf16 st.buffer (stableEndOf st force)
  let segment := takeBytes st.buffer byte_end
  let remaining := dropBytes st.buffer byte_end
  if force then
    (some segment,
     { st with
         buffer := remaining
         buffer_len_utf16 := utf16Length remaining
         last_sentence_end_utf16 := 0
         last_whitespace_utf16 := 0
         prev_char := remaining.getLast? })
  else
    (some segment,
     { st with
         buffer := remaining
         buffer_len_utf16 := utf16Length remaining
         last_sentence_end_utf16 := st.last_sentence_end_utf16 - stableEndOf st force
         last_whitespace_utf16 := st.last_whitespace_utf16 - stableEndOf st force
         prev_char := remaining.getLast? })

/-- VulpesStreamingKernel::pop_segment (lines 110-175), as a pure function
returning the popped segment and the successor state; every early return
leaves the state unchanged. -/
def pop_segment (st : KernelState) (forceOpt : Option Bool) :
    Option (List Char) × KernelState :=
  if st.buffer.isEmpty then (none, st)
  else if flushPointOf st (forceOpt.getD false) = 0 then (none, st)
  else if stableEndOf st (forceOpt.getD false) = 0 then (none, st)
  else popEmit st (forceOpt.getD false)

/-- C10: whenever pop_segment returns None (empty buffer, no flush point, or
zero stable end after overlap retention) the entire kernel state is left
unchanged — no partial emission or mutation occurs. -/
theorem C10_pop_segment_none_frame (st : KernelState) (forceOpt : Option Bool)
    (h : (pop_segment st forceOpt).1 = none) : (pop_segment st forceOpt).2 = st := by
  rcases hp : pop_segment st forceOpt with ⟨res, st'⟩
  rw [hp] at h
  simp only at h
  subst h
  rw [pop_segment] at hp
  split at hp
  · exact (Prod.mk.injEq _ _ _ _ ▸ hp).2.symm
  · split at hp
    · exact (Prod.mk.injEq _ _ _ _ ▸ hp).2.symm
    · split at hp
      · exact (Prod.mk.injEq _ _ _ _ ▸ hp).2.symm
      · rw [popEmit] at hp
        split at hp <;> simp at hp

/-- Witness for C10_pop_segment_none_frame: a fresh sentence-mode kernel pops
nothing and is unchanged. -/
theorem C10_witness :
    (pop_segment (KernelState.new "sentence" 100 16) none).1 = none ∧
    (pop_segment (KernelState.new "sentence" 100 16) none).2 =
      KernelState.new "sentence" 100 16 :=
  ⟨by decide, C10_pop_segment_none_frame (KernelState.new "sentence" 100 16) none
    (by decide)⟩

end Streaming

-- ===========================================================================
-- apply.rs : apply_replacements
-- ===========================================================================

namespace Apply

/-- apply.rs Replacement (lines 4-9). -/
structure Replacement where
  character_start : Nat
  character_end : Nat
  replacement : List Char

/-- Per-character entries of the UTF-16 to byte map (apply.rs lines 15-18). -/
def mapEntriesGo : List Char → Nat → Nat → List (Nat × Nat)
  | [], _, _ => []
  | c :: rest, u16pos, bytePos =>
    (u16pos, bytePos) :: mapEntriesGo rest (u16pos + utf16Len c) (bytePos + utf8Len c)

/-- Helper for Vec::dedup_by_key: x is the head of the current run of equal
keys; later members of the run are dropped. -/
def dedupByKeyGo (x : Nat × Nat) : List (Nat × Nat) → List (Nat × Nat)
  | [] => [x]
  | y :: rest => if x.1 = y.1 then dedupByKeyGo x rest else x :: dedupByKeyGo y rest

/-- Vec::dedup_by_key on the first component: drop later members of each run
of equal keys, keeping the first. -/
def dedupByKey : List (Nat × Nat) → List (Nat × Nat)
  | [] => []
  | x :: rest => dedupByKeyGo x rest

/-- apply.rs build_utf16_to_byte_map (lines 11-23).  The entries are pushed
in nondecreasing key order, so the Rust sort_by_key is the identity and only
the dedup matters. -/
def build_utf16_to_byte_map (text : List Char) : List (Nat × Nat) :=
  dedupByKey ((0, 0) :: (mapEntriesGo text 0 0 ++ [(utf16Length text, utf8Length text)]))

/-- apply.rs utf16_to_byte (lines 25-36): binary search over the sorted map;
an exact hit returns its byte offset, otherwise the nearest preceding entry
(0 when there is none).  On a sorted map this equals the byte offset of the
last entry with key at most the query, modelled as a fold. -/
def utf16_to_byte (map : List (Nat × Nat)) (u : Nat) : Nat :=
  (map.foldl (fun acc e => if e.1 ≤ u then some e.2 else acc) none).getD 0

/-- Rust str::is_char_boundary on the character-list model. -/
def isCharBoundary : List Char → Nat → Bool
  | _, 0 => true
  | [], _ => false
  | c :: rest, b => if b < utf8Len c then false else isCharBoundary rest (b - utf8Len c)

/-- Clamped start byte offset of one replacement (apply.rs lines 61-64). -/
def startByteOf (map : List (Nat × Nat)) (out : List Char) (r : Replacement) : Nat :=
  Nat.min (utf16_to_byte map r.character_start) (utf8Length out)

/-- Clamped end byte offset of one replacement (apply.rs lines 62-65). -/
def endByteOf (map : List (Nat × Nat)) (out : List Char) (r : Replacement) : Nat :=
  Nat.min (utf16_to_byte map r.character_end) (utf8Length out)

/-- The body of the replacement loop (apply.rs lines 54-78) for one
replacement: clamp offsets, skip empty or non-boundary ranges, otherwise
splice; zeroization of the extracted segment has no observable effect on the
returned string.  The Rust r.character_start.min(u32::MAX) is the identity on
u32 and is omitted. -/
def applyStep (map : List (Nat × Nat)) (out : List Char) (r : Replacement) : List Char :=
  if r.character_end ≤ r.character_start then out
  else if endByteOf map out r ≤ startByteOf map out r then out
  else if ¬ (isCharBoundary out (startByteOf map out r) = true ∧
             isCharBoundary out (endByteOf map out r) = true) then out
  else takeBytes out (startByteOf map out r) ++ r.replacement ++
       dropBytes out (endByteOf map out r)

/-- apply.rs apply_replacements (lines 43-81).  The stable sort by
character_start descending is modelled by insertionSort with the matching
less-or-equal test. -/
def apply_replacements (text : List Char) (replacements : List Replacement) : List Char :=
  if text.isEmpty ∨ replacements.isEmpty then text
  else
    (insertionSort (fun a b => b.character_start ≤ a.character_start) replacements).foldl
      (applyStep (build_utf16_to_byte_map text)) text

/-- Modelled from the spec's words (C6): a UTF-16 offset lands on a character
boundary of a string when it is the exact UTF-16 prefix length of some
character prefix; offsets inside the surrogate pair of an astral character
are not boundaries. -/
def specUtf16Boundary : List Char → Nat → Bool
  | _, 0 => true
  | [], _ => false
  | c :: rest, u => if u < utf16Len c then false else specUtf16Boundary rest (u - utf16Len c)

/-- C6: the boundary-violation half of the claim is false: offset 1 falls
inside the surrogate pair of the astral character at the start of the text,
yet the replacement is not skipped — the start offset is snapped to the
preceding boundary 0 and the replacement is applied. -/
theorem C6_counterexample :
    specUtf16Boundary "𝄞ab".data 1 = false ∧
    apply_replacements "𝄞ab".data [⟨1, 3, "X".data⟩] = "Xb".data ∧
    "Xb".data ≠ "𝄞ab".data := by
  refine ⟨by decide, by decide, by decide⟩

/-- C6 (amended): apply_replacements is the identity when the text or the
replacement list is empty; a replacement is skipped — with the remaining
replacements still applied — exactly when, after snapping its UTF-16 offsets
to byte offsets through the map and clamping, the byte range is empty or
fails the byte-level character-boundary check on the current text (offsets
inside a surrogate pair are instead snapped to the preceding boundary and
applied). -/
theorem C6_amended :
    (∀ (text : List Char) (rs : List Replacement), text = [] ∨ rs = [] →
        apply_replacements text rs = text) ∧
    (∀ (map : List (Nat × Nat)) (out : List Char) (r : Replacement),
        (r.character_end ≤ r.character_start ∨
         endByteOf map out r ≤ startByteOf map out r ∨
         ¬ (isCharBoundary out (startByteOf map out r) = true ∧
            isCharBoundary out (endByteOf map out r) = true)) →
        applyStep map out r = out) ∧
    (∀ (map : List (Nat × Nat)) (out : List Char) (l1 l2 : List Replacement) (r : Replacement),
        applyStep map (l1.foldl (applyStep map) out) r = l1.foldl (applyStep map) out →
        (l1 ++ r :: l2).foldl (applyStep map) out = (l1 ++ l2).foldl (applyStep map) out) := by
  refine ⟨?_, ?_, ?_⟩
  · intro text rs h
    rcases h with h | h <;> simp [apply_replacements, h]
  · intro map out r h
    rw [applyStep]
    split
    · rfl
    · split
      · rfl
      · split
        · rfl
        · rename_i h1 h2 h3
          rcases h with h | h | h
          · exact absurd h h1
          · exact absurd h h2
          · exact absurd (not_not.mp h3) h
  · intro map out l1 l2 r h
    rw [List.foldl_append, List.foldl_append, List.foldl_cons, h]

/-- Witness for C6_amended at concrete inputs: identity on an empty text, a
reversed-range replacement is a no-op, and removing it from a list does not
change the fold. -/
theorem C6_witness :
    apply_replacements [] [⟨0, 1, "X".data⟩] = [] ∧
    applyStep [] "ab".data ⟨2, 1, "X".data⟩ = "ab".data ∧
    ([] ++ (⟨2, 1, "X".data⟩ : Replacement) :: []).foldl (applyStep []) "ab".data =
      ([] ++ ([] : List Replacement)).foldl (applyStep []) "ab".data :=
  ⟨C6_amended.1 [] [⟨0, 1, "X".data⟩] (Or.inl rfl),
   C6_amended.2.1 [] "ab".data ⟨2, 1, "X".data⟩ (Or.inl (by decide)),
   C6_amended.2.2 [] "ab".data [] [] ⟨2, 1, "X".data⟩ (by decide)⟩

end Apply

-- ===========================================================================
-- scan.rs : detection record (lines 6-14)
-- ===========================================================================

namespace Scan

/-- scan.rs IdentifierDetection (lines 6-14): u32 offsets as Nat, f64
confidence as Rat, text as a character list. -/
structure IdentifierDetection where
  filter_type : String
  character_start : Nat
  character_end : Nat
  text : List Char
  confidence : ℚ
  pattern : String
deriving DecidableEq

end Scan

-- ===========================================================================
-- scan_stream.rs : VulpesStreamingIdentifierScanner
-- ===========================================================================

namespace ScanStream

/-- scan_stream.rs tail_by_utf16 (lines 26-37); its byte_index_at_utf16
(lines 8-24) is character-for-character the streaming.rs function and is
reused. -/
def tail_by_utf16 (s : List Char) (keep : Nat) : List Char :=
  if keep = 0 then []
  else if utf16Length s ≤ keep then s
  else dropBytes s (Streaming.byte_index_at_utf16 s (utf16Length s - keep))

/-- scan_stream.rs VulpesStreamingIdentifierScanner state (lines 40-45). -/
structure ScannerState where
  overlap_utf16 : Nat
  tail : List Char
  tail_len_utf16 : Nat
  total_len_utf16 : Nat

/-- VulpesStreamingIdentifierScanner::new (lines 50-57). -/
def ScannerState.new (overlap_utf16 : Nat) : ScannerState :=
  ⟨overlap_utf16, [], 0, 0⟩

/-- VulpesStreamingIdentifierScanner::push (lines 71-97), parametrized by the
batch scanner it runs on tail ++ chunk: scan_all_identifiers is a 1500-line
regex pipeline whose only property used by the claims settled here is that
detections end within the scanned text, which is taken as a hypothesis where
needed.  The u32 saturating adds are modelled as exact Nat addition (see the
module header). -/
def push (scan : List Char → List Scan.IdentifierDetection) (st : ScannerState)
    (chunk : List Char) : List Scan.IdentifierDetection × ScannerState :=
  if chunk.isEmpty then ([], st)
  else
    let combined_start_global := st.total_len_utf16 - st.tail_len_utf16
    let dets := (scan (st.tail ++ chunk)).map (fun d =>
      { d with
          character_start := d.character_start + combined_start_global
          character_end := d.character_end + combined_start_global })
    let kept := dets.filter (fun d => d.character_end > st.total_len_utf16)
    let newTail := tail_by_utf16 (st.tail ++ chunk) st.overlap_utf16
    (insertionSort (fun a b => a.character_start ≤ b.character_start) kept,
     { st with
         total_len_utf16 := st.total_len_utf16 + utf16Length chunk
         tail := newTail
         tail_len_utf16 := utf16Length newTail })

/-- Process a list of chunks in order, collecting each push's emissions. -/
def pushAll (scan : List Char → List Scan.IdentifierDetection) (st : ScannerState) :
    List (List Char) → List (List Scan.IdentifierDetection) × ScannerState
  | [] => ([], st)
  | c :: cs =>
    let res := push scan st c
    let rest := pushAll scan res.2 cs
    (res.1 :: rest.1, rest.2)

/-- Total UTF-16 length of a list of chunks. -/
def sumLen (chunks : List (List Char)) : Nat := (chunks.map utf16Length).sum

/-- State invariant maintained by push: the cached tail length is the tail's
UTF-16 length and never exceeds the global total. -/
def Inv (st : ScannerState) : Prop :=
  st.tail_len_utf16 = utf16Length st.tail ∧ st.tail_len_utf16 ≤ st.total_len_utf16

theorem utf16Length_append (a b : List Char) :
    utf16Length (a ++ b) = utf16Length a + utf16Length b := by
  simp [utf16Length]

theorem utf16Length_dropBytes_le (s : List Char) (b : Nat) :
    utf16Length (dropBytes s b) ≤ utf16Length s := by
  induction s generalizing b with
  | nil => cases b <;> simp [dropBytes]
  | cons c rest ih =>
    cases b with
    | zero => simp [dropBytes]
    | succ b' =>
      rw [show dropBytes (c :: rest) (b' + 1) =
        (if utf8Len c ≤ b' + 1 then dropBytes rest (b' + 1 - utf8Len c) else c :: rest)
        from rfl]
      split
      · calc utf16Length (dropBytes rest _) ≤ utf16Length rest := ih _
          _ ≤ utf16Length (c :: rest) := by simp [utf16Length]
      · exact le_refl _

theorem tail_by_utf16_le (s : List Char) (keep : Nat) :
    utf16Length (tail_by_utf16 s keep) ≤ utf16Length s := by
  rw [tail_by_utf16]
  split
  · simp [utf16Length]
  · split
    · exact le_refl _
    · exact utf16Length_dropBytes_le _ _

theorem push_inv {scan : List Char → List Scan.IdentifierDetection}
    {st : ScannerState} (h : Inv st) (chunk : List Char) :
    Inv (push scan st chunk).2 ∧
    (push scan st chunk).2.total_len_utf16 = st.total_len_utf16 + utf16Length chunk ∧
    (push scan st chunk).2.overlap_utf16 = st.overlap_utf16 := by
  rw [push]
  split
  · rename_i he
    have : chunk = [] := by simpa using he
    subst this
    exact ⟨h, by simp [utf16Length], rfl⟩
  · refine ⟨⟨rfl, ?_⟩, rfl, rfl⟩
    calc utf16Length (tail_by_utf16 (st.tail ++ chunk) st.overlap_utf16)
        ≤ utf16Length (st.tail ++ chunk) := tail_by_utf16_le _ _
      _ = utf16Length st.tail + utf16Length chunk := utf16Length_append _ _
      _ ≤ st.total_len_utf16 + utf16Length chunk := by
          have := h.1; have := h.2; omega

theorem push_emit_bounds {scan : List Char → List Scan.IdentifierDetection}
    (hscan : ∀ s d, d ∈ scan s → d.character_end ≤ utf16Length s)
    {st : ScannerState} (h : Inv st) (chunk : List Char)
    {d : Scan.IdentifierDetection} (hd : d ∈ (push scan st chunk).1) :
    st.total_len_utf16 < d.character_end ∧
    d.character_end ≤ st.total_len_utf16 + utf16Length chunk := by
  rw [push] at hd
  split at hd
  · simp at hd
  · rw [mem_insertionSort] at hd
    simp only [List.mem_filter, List.mem_map] at hd
    obtain ⟨⟨d0, hd0, hde⟩, hgt⟩ := hd
    have hce : d.character_end =
        d0.character_end + (st.total_len_utf16 - st.tail_len_utf16) := by
      rw [← hde]
    have hbound := hscan _ _ hd0
    rw [utf16Length_append] at hbound
    have h1 := h.1
    have h2 := h.2
    have hgt' : d.character_end > st.total_len_utf16 := by simpa using hgt
    omega

theorem pushAll_bounds {scan : List Char → List Scan.IdentifierDetection}
    (hscan : ∀ s d, d ∈ scan s → d.character_end ≤ utf16Length s) :
    ∀ (chunks : List (List Char)) (st : ScannerState), Inv st →
      ∀ (i : Nat) (ds : List Scan.IdentifierDetection) (d : Scan.IdentifierDetection),
        ((pushAll scan st chunks).1)[i]? = some ds → d ∈ ds →
        st.total_len_utf16 + sumLen (chunks.take i) < d.character_end ∧
        d.character_end ≤ st.total_len_utf16 + sumLen (chunks.take (i + 1)) := by
  intro chunks
  induction chunks with
  | nil =>
    intro st _ i ds d hds
    simp [pushAll] at hds
  | cons c cs ih =>
    intro st hInv i ds d hds hd
    rw [pushAll] at hds
    match i with
    | 0 =>
      simp only [List.getElem?_cons_zero] at hds
      have hds' : ds = (push scan st c).1 := (Option.some_inj.mp hds).symm
      subst hds'
      have hb := push_emit_bounds hscan hInv c hd
      have h1 : sumLen ((c :: cs).take (0 + 1)) = utf16Length c := by simp [sumLen]
      have h0 : sumLen (((c :: cs) : List (List Char)).take 0) = 0 := by simp [sumLen]
      omega
    | i' + 1 =>
      simp only [List.getElem?_cons_succ] at hds
      have hpi := @push_inv scan st hInv c
      have hih := ih (push scan st c).2 hpi.1 i' ds d hds hd
      have htot := hpi.2.1
      have h1 : sumLen ((c :: cs).take (i' + 1)) = utf16Length c + sumLen (cs.take i') := by
        simp [sumLen]
      have h2 : sumLen ((c :: cs).take (i' + 1 + 1))
          = utf16Length c + sumLen (cs.take (i' + 1)) := by
        simp [sumLen]
      omega

theorem sumLen_take_mono (l : List (List Char)) :
    ∀ i j, i ≤ j → sumLen (l.take i) ≤ sumLen (l.take j) := by
  induction l with
  | nil => intro i j _; simp [sumLen]
  | cons c cs ih =>
    intro i j hij
    match i, j with
    | 0, _ => simp [sumLen]
    | i' + 1, j' + 1 =>
      have := ih i' j' (by omega)
      simp only [List.take_succ_cons, sumLen, List.map_cons, List.sum_cons]
      have h1 : sumLen (cs.take i') ≤ sumLen (cs.take j') := this
      simp only [sumLen] at h1
      omega

/-- C5: starting from a fresh streaming identifier scanner, (a) every
detection returned by a push ends strictly after the global UTF-16 offset at
which that chunk begins, and (b) no detection is emitted by two different
pushes.  The batch scanner is abstracted by the hypothesis that its
detections end within the scanned text. -/
theorem C5_stream (scan : List Char → List Scan.IdentifierDetection)
    (hscan : ∀ s d, d ∈ scan s → d.character_end ≤ utf16Length s)
    (overlap : Nat) (chunks : List (List Char)) :
    (∀ (i : Nat) (ds : List Scan.IdentifierDetection) (d : Scan.IdentifierDetection),
       ((pushAll scan (ScannerState.new overlap) chunks).1)[i]? = some ds → d ∈ ds →
       sumLen (chunks.take i) < d.character_end) ∧
    (∀ (i j : Nat) (ds ds' : List Scan.IdentifierDetection)
       (d d' : Scan.IdentifierDetection), i < j →
       ((pushAll scan (ScannerState.new overlap) chunks).1)[i]? = some ds →
       ((pushAll scan (ScannerState.new overlap) chunks).1)[j]? = some ds' →
       d ∈ ds → d' ∈ ds' → d ≠ d') := by
  have hInv0 : Inv (ScannerState.new overlap) := ⟨rfl, le_refl _⟩
  constructor
  · intro i ds d hds hd
    have hb := pushAll_bounds hscan chunks (ScannerState.new overlap) hInv0 i ds d hds hd
    simpa [ScannerState.new] using hb.1
  · intro i j ds ds' d d' hij hds hds' hd hd'
    have hbi := pushAll_bounds hscan chunks (ScannerState.new overlap) hInv0 i ds d hds hd
    have hbj := pushAll_bounds hscan chunks (ScannerState.new overlap) hInv0 j ds' d' hds' hd'
    have hmono := sumLen_take_mono chunks (i + 1) j hij
    intro hEq
    rw [hEq] at hbi
    simp only [ScannerState.new] at hbi hbj
    omega

/-- A trivial in-bounds scanner used to witness C5_stream: it reports the
whole scanned text as one detection. -/
def cexScanner (s : List Char) : List Scan.IdentifierDetection :=
  [⟨"CUSTOM", 0, utf16Length s, s, 1, "whole"⟩]

/-- Witness for C5_stream at a concrete scanner, overlap and chunk list. -/
theorem C5_witness :
    (∀ (i : Nat) (ds : List Scan.IdentifierDetection) (d : Scan.IdentifierDetection),
       ((pushAll cexScanner (ScannerState.new 2) [['a'], ['b']]).1)[i]? = some ds → d ∈ ds →
       sumLen (([['a'], ['b']] : List (List Char)).take i) < d.character_end) ∧
    (∀ (i j : Nat) (ds ds' : List Scan.IdentifierDetection)
       (d d' : Scan.IdentifierDetection), i < j →
       ((pushAll cexScanner (ScannerState.new 2) [['a'], ['b']]).1)[i]? = some ds →
       ((pushAll cexScanner (ScannerState.new 2) [['a'], ['b']]).1)[j]? = some ds' →
       d ∈ ds → d' ∈ ds' → d ≠ d') :=
  C5_stream cexScanner
    (fun s d hd => by
      simp only [cexScanner, List.mem_singleton] at hd
      subst hd
      exact le_refl _)
    2 [['a'], ['b']]

end ScanStream

-- ===========================================================================
-- fuzzy.rs : VulpesFuzzyMatcher
-- ===========================================================================

namespace Fuzzy

/-- Rust str::trim on the character-list model. -/
def trim (s : List Char) : List Char :=
  ((s.dropWhile Char.isWhitespace).reverse.dropWhile Char.isWhitespace).reverse

/-- Query/term normalization used by fuzzy.rs (to_lowercase().trim()); as in
span.rs, the character-wise Char.toLower models Rust to_lowercase on all
inputs whose lowercase is a single character, in particular ASCII. -/
def normalize (s : List Char) : List Char := trim (s.map Char.toLower)

/-- fuzzy.rs FuzzyMatcherConfig (lines 77-84); cache_size only sizes the LRU
cache, which memoizes lookup results and is not modelled (it returns earlier
lookup results unchanged and cannot affect the membership claim). -/
structure FuzzyMatcherConfig where
  max_edit_distance : Int
  enable_phonetic : Bool
  min_term_length : Int
  cache_size : Int

/-- fuzzy.rs FuzzyMatchResult (lines 67-75). -/
structure FuzzyMatchResult where
  matched : Bool
  term : Option (List Char)
  distance : Int
  confidence : ℚ
  match_type : String

/-- All single-character deletions of a word, in position order. -/
def deleteOne : List Char → List (List Char)
  | [] => []
  | c :: rest => rest :: (deleteOne rest).map (fun w => c :: w)

/-- Add words to a seen set, returning the grown set and the fresh words. -/
def dedupAdd (seen : List (List Char)) (ws : List (List Char)) :
    List (List Char) × List (List Char) :=
  ws.foldl (fun acc w => if w ∈ acc.1 then acc else (w :: acc.1, acc.2 ++ [w])) (seen, [])

/-- Level k of generate_deletions (fuzzy.rs lines 168-203): every chain of k
single-character deletions shortens the word by exactly k characters, so the
distance recorded by the Rust worklist at first discovery is the level, and
the worklist's seen-set pruning generates exactly the level-wise fresh words;
the claims settled here do not depend on the emission order. -/
def genLevels (minLen : Nat) : Nat → Nat → List (List Char) → List (List Char) →
    List (List Char × Nat)
  | 0, _, _, _ => []
  | budget + 1, dist, level, seen =>
    let cand := ((level.map deleteOne).join).filter (fun w => utf8Length w ≥ minLen)
    let fresh := dedupAdd seen cand
    (fresh.2.map (fun w => (w, dist))) ++ genLevels minLen budget (dist + 1) fresh.2 fresh.1

/-- fuzzy.rs generate_deletions (lines 168-203): deletion neighbourhood up to
max_edit_distance, dropping words shorter (in bytes) than
max(min_term_length − max_edit_distance, 1). -/
def generate_deletions (cfg : FuzzyMatcherConfig) (term : List Char) :
    List (List Char × Nat) :=
  genLevels (max (cfg.min_term_length - cfg.max_edit_distance) 1).toNat
    cfg.max_edit_distance.toNat 1 [term] []

/-- fuzzy.rs soundex code table (lines 503-513). -/
def soundexCode (c : Char) : Char :=
  if c = 'B' ∨ c = 'F' ∨ c = 'P' ∨ c = 'V' then '1'
  else if c = 'C' ∨ c = 'G' ∨ c = 'J' ∨ c = 'K' ∨ c = 'Q' ∨ c = 'S' ∨ c = 'X' ∨ c = 'Z'
    then '2'
  else if c = 'D' ∨ c = 'T' then '3'
  else if c = 'L' then '4'
  else if c = 'M' ∨ c = 'N' then '5'
  else if c = 'R' then '6'
  else '0'

/-- The character loop of soundex (fuzzy.rs lines 515-526). -/
def soundexGo : List Char → Char → List Char → List Char
  | [], _, result => result
  | c :: rest, prevCode, result =>
    if result.length ≥ 4 then result
    else
      let curr := soundexCode c
      soundexGo rest curr
        (if curr ≠ '0' ∧ curr ≠ prevCode then result ++ [curr] else result)

/-- fuzzy.rs soundex (lines 488-533). -/
def soundex (text : List Char) : List Char :=
  let s := (text.map Char.toUpper).filter (fun c => c.isAlpha)
  match s with
  | [] => "0000".data
  | c0 :: rest =>
    let result := soundexGo rest (soundexCode c0) [c0]
    result ++ List.replicate (4 - result.length) '0'

/-- One row of the Damerau-Levenshtein DP (fuzzy.rs lines 428-447), walking
the second word: prevList starts at the previous row's index j−1, and
prevPrevList is fed one dummy ahead so its head is the row-before-previous at
index j−2 exactly when the transposition guard (j > 1, via bPrev) can fire. -/
def dlRowGo (ai : Char) (aim1 : Option Char) :
    List Char → Option Char → List Nat → List Nat → Nat → List Nat
  | [], _, _, _, _ => []
  | bj :: bRest, bPrev, prevList, prevPrevList, currPrev =>
    let cost := if ai = bj then 0 else 1
    let base := min (min (prevList.getD 1 0 + 1) (currPrev + 1)) (prevList.getD 0 0 + cost)
    let cell := match aim1, bPrev with
      | some ai2, some bj2 =>
        if ai = bj2 ∧ ai2 = bj then min base (prevPrevList.getD 0 0 + cost) else base
      | _, _ => base
    cell :: dlRowGo ai aim1 bRest (some bj) prevList.tail prevPrevList.tail cell

/-- The row loop of the Damerau-Levenshtein DP (fuzzy.rs lines 425-452),
rotating (prevPrev, prev) to (prev, curr). -/
def dlLoop (b : List Char) : List Char → Option Char → List Nat → List Nat → Nat → List Nat
  | [], _, _, prev, _ => prev
  | ai :: aRest, aim1, prevPrev, prev, i =>
    let curr := i :: dlRowGo ai aim1 b none prev (0 :: prevPrev) i
    dlLoop b aRest (some ai) prev curr (i + 1)

/-- fuzzy.rs damerau_levenshtein (lines 401-455), including the early return
of the bare length difference when it exceeds 2. -/
def damerau_levenshtein (a b : List Char) : Nat :=
  let lenA := a.length
  let lenB := b.length
  if lenA = 0 then lenB
  else if lenB = 0 then lenA
  else if max lenA lenB - min lenA lenB > 2 then max lenA lenB - min lenA lenB
  else (dlLoop b a none (List.replicate (lenB + 1) 0) (List.range (lenB + 1)) 1).getD lenB 0

/-- Length of the common prefix of two words (fuzzy.rs lines 471-478). -/
def commonPrefixLen : List Char → List Char → Nat
  | a :: as2, b :: bs => if a = b then 1 + commonPrefixLen as2 bs else 0
  | _, _ => 0

/-- fuzzy.rs calculate_confidence (lines 458-485); f64 read as Rat and the
i32 distance as Int, with powi as zpow. -/
def calculate_confidence (query matched : List Char) (distance : Int) : ℚ :=
  if distance = 0 then 1
  else
    let maxLen : ℚ := (max (utf8Length query) (utf8Length matched) : Nat)
    let similarity : ℚ := 1 - (distance : ℚ) / maxLen
    let maxPref := min 4 (min query.length matched.length)
    let prefLen := commonPrefixLen (query.take maxPref) (matched.take maxPref)
    let prefBonus := (prefLen : ℚ) * (1/10) * (1 - similarity)
    min (similarity + prefBonus) (99/100) * (92/100) ^ distance

/-- HashSet::insert modelled with first-occurrence order. -/
def setInsert (s : List (List Char)) (x : List Char) : List (List Char) :=
  if x ∈ s then s else s ++ [x]

/-- HashMap entry().or_insert(Vec::new()).push(v) for the deletion index. -/
def indexAdd (idx : List (List Char × List (List Char × Nat))) (key : List Char)
    (v : List Char × Nat) : List (List Char × List (List Char × Nat)) :=
  match idx with
  | [] => [(key, [v])]
  | (k, vs) :: rest =>
    if k = key then (k, vs ++ [v]) :: rest else (k, vs) :: indexAdd rest key v

/-- HashMap entry().or_insert(Vec::new()).push(term) for the phonetic index. -/
def phonAdd (idx : List (List Char × List (List Char))) (key : List Char)
    (term : List Char) : List (List Char × List (List Char)) :=
  match idx with
  | [] => [(key, [term])]
  | (k, vs) :: rest =>
    if k = key then (k, vs ++ [term]) :: rest else (k, vs) :: phonAdd rest key term

/-- HashMap::get on the association-list model. -/
def indexGet {β : Type} (idx : List (List Char × β)) (key : List Char) : Option β :=
  match idx with
  | [] => none
  | (k, vs) :: rest => if k = key then some vs else indexGet rest key

/-- The immutable state of a VulpesFuzzyMatcher (fuzzy.rs lines 104-111),
without the query cache (see FuzzyMatcherConfig). -/
structure MatcherData where
  config : FuzzyMatcherConfig
  exact_terms : List (List Char)
  deletion_index : List (List Char × List (List Char × Nat))
  phonetic_index : List (List Char × List (List Char))

/-- One iteration of build_index (fuzzy.rs lines 133-165). -/
def build_term (m : MatcherData) (raw_term : List Char) : MatcherData :=
  let term := normalize raw_term
  if (utf8Length term : Int) < m.config.min_term_length then m
  else
    let m1 := { m with exact_terms := setInsert m.exact_terms term }
    let m2 := (generate_deletions m.config term).foldl
      (fun mm d => { mm with deletion_index := indexAdd mm.deletion_index d.1 (term, d.2) })
      m1
    if m.config.enable_phonetic then
      { m2 with phonetic_index := phonAdd m2.phonetic_index (soundex term) term }
    else m2

/-- VulpesFuzzyMatcher::new + build_index (fuzzy.rs lines 115-165). -/
def VulpesFuzzyMatcher.new (terms : List (List Char)) (config : FuzzyMatcherConfig) :
    MatcherData :=
  terms.foldl build_term ⟨config, [], [], []⟩

/-- Candidate accumulation step shared by get_candidates: record a deletion
entry unless its term was already seen. -/
def dedupAppend (acc : List (List Char) × List (List Char × Nat)) (e : List Char × Nat) :
    List (List Char) × List (List Char × Nat) :=
  if e.1 ∈ acc.1 then acc else (e.1 :: acc.1, acc.2 ++ [e])

/-- Direct deletion-index hits for the query (fuzzy.rs lines 318-326). -/
def candStep1 (m : MatcherData) (query : List Char) :
    List (List Char) × List (List Char × Nat) :=
  match indexGet m.deletion_index query with
  | some directMatches => directMatches.foldl dedupAppend ([], [])
  | none => ([], [])

/-- Per-deletion candidate harvesting (fuzzy.rs lines 331-352): an exact
dictionary hit for the deletion, then its deletion-index hits. -/
def candStep2 (m : MatcherData) (acc : List (List Char) × List (List Char × Nat))
    (d : List Char × Nat) : List (List Char) × List (List Char × Nat) :=
  let acc1 :=
    if d.1 ∈ m.exact_terms ∧ d.1 ∉ acc.1
    then (d.1 :: acc.1, acc.2 ++ [(d.1, d.2)]) else acc
  match indexGet m.deletion_index d.1 with
  | some entries => entries.foldl dedupAppend acc1
  | none => acc1

/-- fuzzy.rs get_candidates (lines 314-355): direct deletion-index hits for
the query, then for each query deletion an exact-dictionary hit and its
deletion-index hits, deduplicated by term in discovery order. -/
def get_candidates (m : MatcherData) (query : List Char) : List (List Char × Nat) :=
  ((generate_deletions m.config query).foldl (candStep2 m) (candStep1 m query)).2

/-- The no-match result (fuzzy.rs lines 302-308). -/
def noMatch : FuzzyMatchResult := ⟨false, none, 2147483647, 0, "NONE"⟩

/-- The best-candidate selection of the deletion pass (fuzzy.rs lines
236-246): keep the first candidate of minimal Damerau-Levenshtein distance
within max_edit_distance. -/
def delFoldStep (m : MatcherData) (nq : List Char) (best : Option (List Char × Nat))
    (c : List Char × Nat) : Option (List Char × Nat) :=
  let distance := damerau_levenshtein nq c.1
  if (distance : Int) ≤ m.config.max_edit_distance then
    match best with
    | none => some (c.1, distance)
    | some b => if distance < b.2 then some (c.1, distance) else best
  else best

/-- The deletion-candidate pass of lookup (fuzzy.rs lines 231-266), returning
none when it falls through to the phonetic fallback. -/
def deletionPass (m : MatcherData) (nq : List Char) : Option FuzzyMatchResult :=
  if (utf8Length nq : Int) ≥ m.config.min_term_length then
    if get_candidates m nq ≠ [] then
      match (get_candidates m nq).foldl (delFoldStep m nq) none with
      | some (term, distance) =>
        some ⟨true, some term, Int.ofNat distance,
          calculate_confidence nq term (Int.ofNat distance),
          if distance = 1 then "DELETE_1" else "DELETE_2"⟩
      | none => none
    else none
  else none

/-- The best-bucket-member selection of the phonetic fallback (fuzzy.rs lines
274-281): keep the first bucket member of minimal distance. -/
def phonFoldStep (nq : List Char) (best : Option (List Char × Nat)) (term : List Char) :
    Option (List Char × Nat) :=
  let distance := damerau_levenshtein nq term
  match best with
  | none => some (term, distance)
  | some b => if distance < b.2 then some (term, distance) else best

/-- The phonetic fallback of lookup (fuzzy.rs lines 268-299). -/
def phoneticPass (m : MatcherData) (nq : List Char) : FuzzyMatchResult :=
  if m.config.enable_phonetic ∧ (utf8Length nq : Int) ≥ m.config.min_term_length then
    match indexGet m.phonetic_index (soundex nq) with
    | some phoneticMatches =>
      match phoneticMatches.foldl (phonFoldStep nq) none with
      | some (term, distance) =>
        if (distance : Int) ≤ m.config.max_edit_distance + 1 then
          ⟨true, some term, Int.ofNat distance,
            calculate_confidence nq term (Int.ofNat distance) * (9/10), "PHONETIC"⟩
        else noMatch
      | none => noMatch
    | none => noMatch
  else noMatch

/-- fuzzy.rs lookup (lines 207-311), without the query cache: exact match,
then the deletion-candidate pass, then the phonetic fallback. -/
def lookup (m : MatcherData) (query : List Char) : FuzzyMatchResult :=
  let nq := normalize query
  if nq ∈ m.exact_terms then ⟨true, some nq, 0, 1, "EXACT"⟩
  else
    match deletionPass m nq with
    | some r => r
    | none => phoneticPass m nq

/-- A term is a member of the constructor's term list after normalization. -/
def GoodTerm (terms : List (List Char)) (t : List Char) : Prop :=
  ∃ raw ∈ terms, t = normalize raw

/-- Every term stored anywhere in the matcher is a normalized input term. -/
def IndexOk (terms : List (List Char)) (m : MatcherData) : Prop :=
  (∀ t ∈ m.exact_terms, GoodTerm terms t) ∧
  (∀ p ∈ m.deletion_index, ∀ e ∈ p.2, GoodTerm terms e.1) ∧
  (∀ p ∈ m.phonetic_index, ∀ t ∈ p.2, GoodTerm terms t)

theorem mem_setInsert {s : List (List Char)} {x y : List Char}
    (h : y ∈ setInsert s x) : y ∈ s ∨ y = x := by
  rw [setInsert] at h
  split at h
  · exact Or.inl h
  · rcases List.mem_append.mp h with h1 | h1
    · exact Or.inl h1
    · simp at h1
      exact Or.inr h1

theorem mem_indexAdd {idx : List (List Char × List (List Char × Nat))}
    {k : List Char} {v : List Char × Nat} {p : List Char × List (List Char × Nat)}
    (hp : p ∈ indexAdd idx k v) :
    ∀ e ∈ p.2, (∃ q ∈ idx, e ∈ q.2) ∨ e = v := by
  induction idx with
  | nil =>
    simp [indexAdd] at hp
    subst hp
    intro e he
    simp at he
    exact Or.inr he
  | cons hd tl ih =>
    obtain ⟨k', vs⟩ := hd
    rw [indexAdd] at hp
    split at hp
    · rcases List.mem_cons.mp hp with h1 | h1
      · subst h1
        intro e he
        rcases List.mem_append.mp he with h2 | h2
        · exact Or.inl ⟨(k', vs), List.mem_cons_self _ _, h2⟩
        · simp at h2
          exact Or.inr h2
      · intro e he
        exact Or.inl ⟨p, List.mem_cons_of_mem _ h1, he⟩
    · rcases List.mem_cons.mp hp with h1 | h1
      · subst h1
        intro e he
        exact Or.inl ⟨(k', vs), List.mem_cons_self _ _, he⟩
      · intro e he
        rcases ih h1 e he with ⟨q, hq, hqe⟩ | h2
        · exact Or.inl ⟨q, List.mem_cons_of_mem _ hq, hqe⟩
        · exact Or.inr h2

theorem mem_phonAdd {idx : List (List Char × List (List Char))}
    {k : List Char} {v : List Char} {p : List Char × List (List Char)}
    (hp : p ∈ phonAdd idx k v) :
    ∀ t ∈ p.2, (∃ q ∈ idx, t ∈ q.2) ∨ t = v := by
  induction idx with
  | nil =>
    simp [phonAdd] at hp
    subst hp
    intro t ht
    simp at ht
    exact Or.inr ht
  | cons hd tl ih =>
    obtain ⟨k', vs⟩ := hd
    rw [phonAdd] at hp
    split at hp
    · rcases List.mem_cons.mp hp with h1 | h1
      · subst h1
        intro t ht
        rcases List.mem_append.mp ht with h2 | h2
        · exact Or.inl ⟨(k', vs), List.mem_cons_self _ _, h2⟩
        · simp at h2
          exact Or.inr h2
      · intro t ht
        exact Or.inl ⟨p, List.mem_cons_of_mem _ h1, ht⟩
    · rcases List.mem_cons.mp hp with h1 | h1
      · subst h1
        intro t ht
        exact Or.inl ⟨(k', vs), List.mem_cons_self _ _, ht⟩
      · intro t ht
        rcases ih h1 t ht with ⟨q, hq, hqt⟩ | h2
        · exact Or.inl ⟨q, List.mem_cons_of_mem _ hq, hqt⟩
        · exact Or.inr h2

theorem indexGet_mem {β : Type} {idx : List (List Char × β)} {k : List Char} {vs : β}
    (h : indexGet idx k = some vs) : ∃ p ∈ idx, p.2 = vs := by
  induction idx with
  | nil => simp [indexGet] at h
  | cons hd tl ih =>
    obtain ⟨k', vs'⟩ := hd
    rw [indexGet] at h
    split at h
    · exact ⟨(k', vs'), List.mem_cons_self _ _, Option.some_inj.mp h⟩
    · obtain ⟨p, hp, hpe⟩ := ih h
      exact ⟨p, List.mem_cons_of_mem _ hp, hpe⟩

theorem build_term_indexOk {terms : List (List Char)} {m : MatcherData}
    {raw : List Char} (hraw : raw ∈ terms) (hm : IndexOk terms m) :
    IndexOk terms (build_term m raw) := by
  rw [build_term]
  split
  · exact hm
  · have hgood : GoodTerm terms (normalize raw) := ⟨raw, hraw, rfl⟩
    have hm1 : IndexOk terms
        { m with exact_terms := setInsert m.exact_terms (normalize raw) } := by
      refine ⟨?_, hm.2.1, hm.2.2⟩
      intro t ht
      rcases mem_setInsert ht with h1 | h1
      · exact hm.1 t h1
      · rw [h1]; exact hgood
    have hm2 : ∀ (dels : List (List Char × Nat)) (mm : MatcherData), IndexOk terms mm →
        IndexOk terms (dels.foldl (fun mm d =>
          { mm with deletion_index := indexAdd mm.deletion_index d.1 (normalize raw, d.2) })
          mm) := by
      intro dels
      induction dels with
      | nil => intro mm hmm; exact hmm
      | cons d ds ih =>
        intro mm hmm
        refine ih _ ⟨hmm.1, ?_, hmm.2.2⟩
        intro p hp e he
        rcases mem_indexAdd hp e he with ⟨q, hq, hqe⟩ | h2
        · exact hmm.2.1 q hq e hqe
        · rw [h2]; exact hgood
    have hm2' := hm2 (generate_deletions m.config (normalize raw)) _ hm1
    split
    · refine ⟨hm2'.1, hm2'.2.1, ?_⟩
      intro p hp t ht
      rcases mem_phonAdd hp t ht with ⟨q, hq, hqt⟩ | h2
      · exact hm2'.2.2 q hq t hqt
      · rw [h2]; exact hgood
    · exact hm2'

theorem new_indexOk (terms : List (List Char)) (cfg : FuzzyMatcherConfig) :
    IndexOk terms (VulpesFuzzyMatcher.new terms cfg) := by
  rw [VulpesFuzzyMatcher.new]
  have hgen : ∀ (l : List (List Char)) (acc : MatcherData), (∀ raw ∈ l, raw ∈ terms) →
      IndexOk terms acc → IndexOk terms (l.foldl build_term acc) := by
    intro l
    induction l with
    | nil => intro acc _ hacc; exact hacc
    | cons raw rest ih =>
      intro acc hsub hacc
      exact ih _ (fun x hx => hsub x (List.mem_cons_of_mem _ hx))
        (build_term_indexOk (hsub raw (List.mem_cons_self _ _)) hacc)
  refine hgen terms _ (fun x hx => hx) ⟨?_, ?_, ?_⟩ <;> intro p hp <;> simp at hp

theorem foldl_choice {γ : Type} (f : Option (List Char × Nat) → γ → Option (List Char × Nat))
    (Q : γ → Prop) (P : List Char → Prop)
    (hf : ∀ acc c, Q c → (∀ b, acc = some b → P b.1) → ∀ b, f acc c = some b → P b.1) :
    ∀ (l : List γ) (acc : Option (List Char × Nat)), (∀ c ∈ l, Q c) →
      (∀ b, acc = some b → P b.1) → ∀ b, l.foldl f acc = some b → P b.1 := by
  intro l
  induction l with
  | nil => intro acc _ hacc b hb; exact hacc b hb
  | cons c cs ih =>
    intro acc hl hacc b hb
    exact ih (f acc c) (fun x hx => hl x (List.mem_cons_of_mem _ hx))
      (hf acc c (hl c (List.mem_cons_self _ _)) hacc) b hb

theorem foldl_dedupAppend_good {terms : List (List Char)}
    (es : List (List Char × Nat)) (acc : List (List Char) × List (List Char × Nat))
    (hes : ∀ e ∈ es, GoodTerm terms e.1) (hacc : ∀ c ∈ acc.2, GoodTerm terms c.1) :
    ∀ c ∈ (es.foldl dedupAppend acc).2, GoodTerm terms c.1 := by
  induction es generalizing acc with
  | nil => exact hacc
  | cons e es2 ih =>
    refine ih _ (fun x hx => hes x (List.mem_cons_of_mem _ hx)) ?_
    intro c hc
    rw [dedupAppend] at hc
    split at hc
    · exact hacc c hc
    · rcases List.mem_append.mp hc with h1 | h1
      · exact hacc c h1
      · simp at h1
        rw [h1]
        exact hes e (List.mem_cons_self _ _)

theorem candStep1_good {terms : List (List Char)} {m : MatcherData}
    (hm : IndexOk terms m) (query : List Char) :
    ∀ c ∈ (candStep1 m query).2, GoodTerm terms c.1 := by
  rw [candStep1]
  rcases hg : indexGet m.deletion_index query with _ | vs
  · intro c hc
    simp at hc
  · obtain ⟨p, hp, hpe⟩ := indexGet_mem hg
    exact foldl_dedupAppend_good vs ([], [])
      (fun e he => hm.2.1 p hp e (hpe ▸ he)) (by intro c hc; simp at hc)

theorem candStep2_good {terms : List (List Char)} {m : MatcherData}
    (hm : IndexOk terms m) (acc : List (List Char) × List (List Char × Nat))
    (d : List Char × Nat) (hacc : ∀ c ∈ acc.2, GoodTerm terms c.1) :
    ∀ c ∈ (candStep2 m acc d).2, GoodTerm terms c.1 := by
  rw [candStep2]
  have hacc1 : ∀ c ∈ (if d.1 ∈ m.exact_terms ∧ d.1 ∉ acc.1
      then (d.1 :: acc.1, acc.2 ++ [(d.1, d.2)]) else acc).2, GoodTerm terms c.1 := by
    intro c hc
    split at hc
    · rename_i hcond
      rcases List.mem_append.mp hc with h1 | h1
      · exact hacc c h1
      · simp at h1
        rw [h1]
        exact hm.1 d.1 hcond.1
    · exact hacc c hc
  rcases hg : indexGet m.deletion_index d.1 with _ | vs
  · simpa using hacc1
  · simp only
    obtain ⟨p, hp, hpe⟩ := indexGet_mem hg
    exact foldl_dedupAppend_good vs _ (fun e he => hm.2.1 p hp e (hpe ▸ he)) hacc1

theorem get_candidates_good {terms : List (List Char)} {m : MatcherData}
    (hm : IndexOk terms m) (q : List Char) :
    ∀ c ∈ get_candidates m q, GoodTerm terms c.1 := by
  rw [get_candidates]
  have hgen : ∀ (dels : List (List Char × Nat))
      (acc : List (List Char) × List (List Char × Nat)),
      (∀ c ∈ acc.2, GoodTerm terms c.1) →
      ∀ c ∈ (dels.foldl (candStep2 m) acc).2, GoodTerm terms c.1 := by
    intro dels
    induction dels with
    | nil => intro acc hacc; exact hacc
    | cons d ds ih => intro acc hacc; exact ih _ (candStep2_good hm acc d hacc)
  exact hgen _ _ (candStep1_good hm q)

theorem delFoldStep_preserves {terms : List (List Char)} {m : MatcherData}
    {nq : List Char} (acc : Option (List Char × Nat)) (c : List Char × Nat)
    (hc : GoodTerm terms c.1) (hacc : ∀ b, acc = some b → GoodTerm terms b.1) :
    ∀ b, delFoldStep m nq acc c = some b → GoodTerm terms b.1 := by
  intro b hb
  simp only [delFoldStep] at hb
  split at hb
  · rcases hacc2 : acc with _ | b'
    · rw [hacc2] at hb
      simp at hb
      subst hb
      exact hc
    · rw [hacc2] at hb
      simp only at hb
      split at hb
      · simp at hb
        subst hb
        exact hc
      · exact hacc b (hacc2 ▸ hb)
  · exact hacc b hb

theorem phonFoldStep_preserves {terms : List (List Char)} {nq : List Char}
    (acc : Option (List Char × Nat)) (c : List Char)
    (hc : GoodTerm terms c) (hacc : ∀ b, acc = some b → GoodTerm terms b.1) :
    ∀ b, phonFoldStep nq acc c = some b → GoodTerm terms b.1 := by
  intro b hb
  simp only [phonFoldStep] at hb
  rcases hacc2 : acc with _ | b'
  · rw [hacc2] at hb
    simp at hb
    subst hb
    exact hc
  · rw [hacc2] at hb
    simp only at hb
    split at hb
    · simp at hb
      subst hb
      exact hc
    · exact hacc b (hacc2 ▸ hb)

theorem deletionPass_good {terms : List (List Char)} {m : MatcherData}
    (hm : IndexOk terms m) (nq : List Char) {r : FuzzyMatchResult}
    (hr : deletionPass m nq = some r) :
    ∃ t, r.term = some t ∧ GoodTerm terms t := by
  rw [deletionPass] at hr
  split at hr
  · split at hr
    · rcases hfold : (get_candidates m nq).foldl (delFoldStep m nq) none with _ | b
      · rw [hfold] at hr
        simp at hr
      · rw [hfold] at hr
        obtain ⟨term, distance⟩ := b
        have hterm : GoodTerm terms term := by
          refine foldl_choice (delFoldStep m nq) (fun c => GoodTerm terms c.1)
            (GoodTerm terms) ?_ (get_candidates m nq) none (get_candidates_good hm nq)
            (by simp) (term, distance) hfold
          intro acc c hc hacc b hb
          exact delFoldStep_preserves acc c hc hacc b hb
        refine ⟨term, ?_, hterm⟩
        have hre : r = ⟨true, some term, Int.ofNat distance,
            calculate_confidence nq term (Int.ofNat distance),
            if distance = 1 then "DELETE_1" else "DELETE_2"⟩ :=
          (Option.some_inj.mp hr).symm
        rw [hre]
    · simp at hr
  · simp at hr

theorem phoneticPass_good {terms : List (List Char)} {m : MatcherData}
    (hm : IndexOk terms m) (nq : List Char) {r : FuzzyMatchResult}
    (hr : phoneticPass m nq = r) (h : r.matched = true) :
    ∃ t, r.term = some t ∧ GoodTerm terms t := by
  rw [phoneticPass] at hr
  split at hr
  case isFalse =>
    rw [← hr] at h
    simp [noMatch] at h
  case isTrue hcond =>
    split at hr
    case h_2 =>
      rw [← hr] at h
      simp [noMatch] at h
    case h_1 vs heq =>
      obtain ⟨p, hp, hpe⟩ := indexGet_mem heq
      split at hr
      case h_2 =>
        rw [← hr] at h
        simp [noMatch] at h
      case h_1 term distance heq2 =>
        have hterm : GoodTerm terms term := by
          refine foldl_choice (phonFoldStep nq) (GoodTerm terms) (GoodTerm terms) ?_
            vs none (fun t ht => hm.2.2 p hp t (hpe ▸ ht)) (by simp) (term, distance) heq2
          intro acc c hc hacc b hb
          exact phonFoldStep_preserves acc c hc hacc b hb
        split at hr
        case isTrue =>
          rw [← hr]
          exact ⟨term, rfl, hterm⟩
        case isFalse =>
          rw [← hr] at h
          simp [noMatch] at h

theorem lookup_good {terms : List (List Char)} {m : MatcherData}
    (hm : IndexOk terms m) (q : List Char) {r : FuzzyMatchResult}
    (hr : lookup m q = r) (h : r.matched = true) :
    ∃ t, r.term = some t ∧ GoodTerm terms t := by
  simp only [lookup] at hr
  split at hr
  case isTrue hmem =>
    rw [← hr]
    exact ⟨normalize q, rfl, hm.1 _ hmem⟩
  case isFalse hmem =>
    split at hr
    case h_1 r0 heq =>
      rw [← hr]
      exact deletionPass_good hm (normalize q) heq
    case h_2 heq =>
      exact phoneticPass_good hm (normalize q) hr h

/-- C7: whenever lookup reports a match, the returned term is a member of the
constructor's term list after normalization (trim and lowercase) — on the
exact, deletion-candidate and phonetic-fallback paths alike. -/
theorem C7_lookup_term_in_dictionary (terms : List (List Char))
    (cfg : FuzzyMatcherConfig) (q : List Char)
    (h : (lookup (VulpesFuzzyMatcher.new terms cfg) q).matched = true) :
    ∃ t, (lookup (VulpesFuzzyMatcher.new terms cfg) q).term = some t ∧
      ∃ raw ∈ terms, t = normalize raw :=
  lookup_good (new_indexOk terms cfg) q rfl h

/-- Witness for C7 at a concrete dictionary and query: the misspelled query
pta matches the dictionary term pat via the deletion-candidate path. -/
theorem C7_witness :
    ∃ t, (lookup (VulpesFuzzyMatcher.new ["pat".data] ⟨2, true, 3, 10000⟩) "pta".data).term
      = some t ∧ ∃ raw ∈ ["pat".data], t = normalize raw :=
  C7_lookup_term_in_dictionary ["pat".data] ⟨2, true, 3, 10000⟩ "pta".data (by decide)

end Fuzzy


-- ===========================================================================
-- scan.rs : the SSN and NPI stages of scan_all_identifiers (C3, C4)
-- ===========================================================================

namespace Scan

-- Regex engine ---------------------------------------------------------------

/-- Word character for the word-boundary assertion: ASCII alphanumeric or
underscore (the regex crate uses Unicode word characters; the SSN and NPI
patterns and the texts they are applied to are ASCII, where the two agree). -/
def isWordChar (c : Char) : Bool := c.isAlphanum || c == '_'

/-- Is the character at position i (if any) a word character? -/
def wordAt (cs : List Char) (i : Nat) : Bool :=
  match cs[i]? with
  | some c => isWordChar c
  | none => false

/-- The regex word-boundary test at position i: exactly one neighbour is a
word character. -/
def boundaryAt (cs : List Char) (i : Nat) : Bool :=
  (if i = 0 then false else wordAt cs (i - 1)) != wordAt cs i

/-- Abstract form of the regex fragment used by the SSN and NPI patterns in
scan.rs: one-character classes, sequencing, alternation (tried left first,
matching the regex crate's leftmost-first semantics), greedy bounded or
unbounded repetition of a character class, the word-boundary assertion, and
one capture group (group 1, used only by NPI_RE). -/
inductive RE where
  | eps : RE
  | cls (C : Char → Bool) : RE
  | seq (a b : RE) : RE
  | alt (a b : RE) : RE
  | rep (C : Char → Bool) (lo : Nat) (hi : Option Nat) : RE
  | wordB : RE
  | grp (a : RE) : RE

/-- Length of the maximal prefix whose characters satisfy C. -/
def clsRun (C : Char → Bool) : List Char → Nat
  | [] => 0
  | c :: t => if C c then clsRun C t + 1 else 0

/-- Greedy backtracking over the number of repetitions: try base + n first,
then down to base. -/
def repTry {A : Type} (κ : Nat → Option A) (base : Nat) : Nat → Option A
  | 0 => κ base
  | j + 1 =>
    match κ (base + (j + 1)) with
    | some r => some r
    | none => repTry κ base j

/-- Backtracking matcher in continuation style: mrun cs re i cap κ attempts
to match re at character position i of cs with current group-1 capture cap,
calling κ with the end position and capture on success; alternation and
repetition backtrack through the continuation, giving the regex crate's
leftmost-first semantics. -/
def mrun {A : Type} (cs : List Char) : RE → Nat → Option (Nat × Nat) →
    (Nat → Option (Nat × Nat) → Option A) → Option A
  | .eps, i, cap, κ => κ i cap
  | .cls C, i, cap, κ =>
    match cs[i]? with
    | some c => if C c then κ (i + 1) cap else none
    | none => none
  | .seq a b, i, cap, κ => mrun cs a i cap (fun j cap2 => mrun cs b j cap2 κ)
  | .alt a b, i, cap, κ =>
    match mrun cs a i cap κ with
    | some r => some r
    | none => mrun cs b i cap κ
  | .rep C lo hi, i, cap, κ =>
    let avail := clsRun C (cs.drop i)
    let m := match hi with | some h => Nat.min avail h | none => avail
    if lo ≤ m then repTry (fun j => κ j cap) (i + lo) (m - lo) else none
  | .wordB, i, cap, κ => if boundaryAt cs i then κ i cap else none
  | .grp a, i, cap, κ => mrun cs a i cap (fun j _ => κ j (some (i, j)))

/-- Anchored match attempt at position i, returning end position and group-1
capture of the first (leftmost-first) match. -/
def anchored (cs : List Char) (re : RE) (i : Nat) : Option (Nat × Option (Nat × Nat)) :=
  mrun cs re i none (fun j cap => some (j, cap))

/-- Scan forward from position i for the leftmost match. -/
def findGo (cs : List Char) (re : RE) : Nat → Nat → Option (Nat × Nat × Option (Nat × Nat))
  | _, 0 => none
  | i, fuel + 1 =>
    match anchored cs re i with
    | some (j, cap) => some (i, j, cap)
    | none => findGo cs re (i + 1) fuel

/-- Successive non-overlapping leftmost matches; after an empty match the
search resumes one character further, as in the regex crate's iterators. -/
def findIterGo (cs : List Char) (re : RE) : Nat → Nat → List (Nat × Nat × Option (Nat × Nat))
  | _, 0 => []
  | pos, fuel + 1 =>
    match findGo cs re pos (cs.length + 1 - pos) with
    | none => []
    | some (i, j, cap) => (i, j, cap) :: findIterGo cs re (if i < j then j else j + 1) fuel

/-- Regex::find_iter / captures_iter on the character-list model: the list of
(start, end, group-1) matches in character positions. -/
def findIter (cs : List Char) (re : RE) : List (Nat × Nat × Option (Nat × Nat)) :=
  findIterGo cs re 0 (cs.length + 1)

-- Pattern constructors -------------------------------------------------------

/-- Sequence a list of regexes. -/
def rcat : List RE → RE
  | [] => .eps
  | [r] => r
  | r :: rs => .seq r (rcat rs)

/-- Literal character. -/
def lit (c : Char) : RE := .cls (fun x => x == c)

/-- Case-insensitive letter, given explicitly as its two cases. -/
def ci (a b : Char) : RE := .cls (fun x => x == a || x == b)

/-- Character class given by an explicit list. -/
def oneOf (l : List Char) : RE := .cls (fun x => l.contains x)

/-- Exactly n repetitions of a class. -/
def repN (C : Char → Bool) (n : Nat) : RE := .rep C n (some n)

/-- Between lo and hi repetitions of a class (greedy). -/
def repB (C : Char → Bool) (lo hi : Nat) : RE := .rep C lo (some hi)

/-- Zero or more repetitions of a class (greedy). -/
def star (C : Char → Bool) : RE := .rep C 0 none

/-- One or more repetitions of a class (greedy). -/
def plus (C : Char → Bool) : RE := .rep C 1 none

/-- Greedy option: try r, then the empty alternative. -/
def ropt (r : RE) : RE := .alt r .eps

/-- Class of the regex escape \s restricted to its ASCII core, as Rust
char::is_whitespace on the ASCII range. -/
def wsC : Char → Bool := Char.isWhitespace

/-- The mask class [\*Xx] of the masked-SSN patterns. -/
def maskC : Char → Bool := fun c => c == '*' || c == 'X' || c == 'x'

/-- The OCR-confusable class [0-9BOSZIlGg|o] of SSN pattern 14. -/
def ocrC : Char → Bool := fun c =>
  c.isDigit || ['B', 'O', 'S', 'Z', 'I', 'l', 'G', 'g', '|', 'o'].contains c

/-- The OCR-confusable class [0-9BOSZIlGgqQ|o] of SSN pattern 26. -/
def ocrC2 : Char → Bool := fun c =>
  c.isDigit || ['B', 'O', 'S', 'Z', 'I', 'l', 'G', 'g', 'q', 'Q', '|', 'o'].contains c

/-- The class [-\s] of SSN pattern 16. -/
def dashWsC : Char → Bool := fun c => c == '-' || Char.isWhitespace c

/-- The class [ \t]. -/
def spTabC : Char → Bool := fun c => c == ' ' || c == '\t'

/-- The class [-.–] (hyphen, dot, en dash). -/
def sepC : Char → Bool := fun c => c == '-' || c == '.' || c == '–'

/-- The 27 SSN_PATTERNS of scan.rs (lines 242-278), in source order.  Capture
groups do not affect find_iter and are dropped; \d is [0-9]; the en dash
escape – is the literal – character. -/
def SSN_PATTERNS : List RE := [
  rcat [.wordB, repN Char.isDigit 3, lit '-', repN Char.isDigit 2, lit '-',
        repN Char.isDigit 4, .wordB],
  rcat [.wordB, repN Char.isDigit 3, .cls spTabC, repN Char.isDigit 2, .cls spTabC,
        repN Char.isDigit 4, .wordB],
  rcat [.wordB, repN Char.isDigit 3, oneOf ['–', '.'], repN Char.isDigit 2,
        oneOf ['–', '.'], repN Char.isDigit 4, .wordB],
  rcat [.wordB, repN Char.isDigit 3, star wsC, .cls sepC, star wsC, repN Char.isDigit 2,
        star wsC, .cls sepC, star wsC, repN Char.isDigit 4, .wordB],
  rcat [.wordB, repN Char.isDigit 2, lit '-', repN Char.isDigit 3, lit '-',
        repN Char.isDigit 4, .wordB],
  rcat [.wordB, repN Char.isDigit 9, .wordB],
  rcat [repN maskC 3, lit '-', repN maskC 2, lit '-', repN Char.isDigit 4, .wordB],
  rcat [repN maskC 3, repN maskC 2, repN Char.isDigit 4, .wordB],
  rcat [.wordB, repN Char.isDigit 3, lit '-', repN Char.isDigit 2, lit '-', repN maskC 4],
  rcat [.wordB, repN Char.isDigit 3, lit '-', lit '-', repN Char.isDigit 2, lit '-',
        repN Char.isDigit 4, .wordB],
  rcat [.wordB, repN Char.isDigit 3, lit '-', repN Char.isDigit 2, lit '-', lit '-',
        repN Char.isDigit 4, .wordB],
  rcat [.wordB, repN Char.isDigit 3, lit '-', repN Char.isDigit 1, plus wsC,
        repN Char.isDigit 1, lit '-', repN Char.isDigit 4, .wordB],
  rcat [.wordB, repN Char.isDigit 3, lit '-', repN Char.isDigit 2, lit '-',
        repN Char.isDigit 1, plus wsC, repN Char.isDigit 3, .wordB],
  rcat [.wordB, repN ocrC 3, lit '-', repN ocrC 2, lit '-', repB ocrC 3 4, .wordB],
  rcat [.wordB, repN Char.isDigit 2, star wsC, repN Char.isDigit 2,
        repN (fun c => c == 'O' || c == '0') 2, star wsC, repN Char.isDigit 4, .wordB],
  rcat [.wordB, repN Char.isDigit 3, star dashWsC,
        repN (fun c => c == 'O' || c == '0') 2, star dashWsC, repN Char.isDigit 4, .wordB],
  rcat [repN maskC 3, lit '-', repN maskC 1, plus wsC, repN maskC 1, lit '-',
        repN Char.isDigit 4, .wordB],
  rcat [repN maskC 3, lit '-', repN maskC 1, star wsC, repN maskC 1, lit '-',
        repN Char.isDigit 4, .wordB],
  rcat [repN maskC 3, lit '-', repN maskC 3, lit '-', repN Char.isDigit 4, .wordB],
  rcat [repN maskC 2, lit '-', repN maskC 3, lit '-', repN Char.isDigit 4, .wordB],
  rcat [repN maskC 3, lit '-', repN maskC 2, lit '-', lit '-', repN Char.isDigit 4, .wordB],
  rcat [repN maskC 3, lit '-', repN maskC 2, repN Char.isDigit 1, lit '-',
        repB Char.isDigit 3 4, .wordB],
  rcat [repN maskC 3, lit '-', repN maskC 2, lit '-', repB Char.isDigit 2 3,
        ropt (.cls Char.isAlpha), .wordB],
  rcat [repN maskC 3, ropt (lit '-'), star wsC, repN maskC 2, lit '-',
        repN Char.isDigit 4, .wordB],
  rcat [.wordB, repN Char.isDigit 3, lit '-', repN Char.isDigit 1, plus wsC,
        repN Char.isDigit 1, lit '-', repN Char.isDigit 3, .wordB],
  rcat [.wordB, repB ocrC2 8 9, .wordB],
  rcat [.wordB, repN Char.isDigit 3, lit '-', repN Char.isDigit 3, lit '-',
        repN Char.isDigit 3, .wordB]]

/-- NPI_RE of scan.rs (lines 321-323): case-insensitive labeled 10-digit NPI
with the digits as group 1. -/
def NPI_RE : RE :=
  rcat [.wordB, ci 'N' 'n', ci 'P' 'p', ci 'I' 'i',
        ropt (rcat [plus wsC,
          .alt (rcat [ci 'N' 'n', ci 'U' 'u', ci 'M' 'm', ci 'B' 'b', ci 'E' 'e', ci 'R' 'r'])
            (.alt (rcat [ci 'N' 'n', ci 'O' 'o']) (lit '#'))]),
        star wsC, star (fun c => c == '#' || c == ':'), star wsC,
        .grp (repN Char.isDigit 10), .wordB]

-- OCR normalization and SSN validation ---------------------------------------

/-- scan.rs normalize_ocr_map (lines 147-159). -/
def normalize_ocr_map (c : Char) : Char :=
  if c == 'O' || c == 'o' then '0'
  else if c == 'l' || c == 'I' || c == '|' then '1'
  else if c == 'B' then '8'
  else if c == 'b' then '6'
  else if c == 'S' || c == 's' then '5'
  else if c == 'Z' || c == 'z' then '2'
  else if c == 'G' then '6'
  else if c == 'g' || c == 'q' then '9'
  else c

/-- scan.rs normalize_ocr_text (lines 161-167). -/
def normalize_ocr_text (s : List Char) : List Char := s.map normalize_ocr_map

/-- The per-character OCR normalization inside is_valid_ssn (scan.rs 298-310). -/
def ssnOcrDigit (c : Char) : Char :=
  if c == 'B' then '8'
  else if c == 'O' then '0'
  else if c == 'S' then '5'
  else if c == 'Z' then '2'
  else if c == 'I' || c == 'l' || c == '|' then '1'
  else if c == 'g' || c == 'G' then '9'
  else c

/-- scan.rs is_valid_ssn (lines 280-315): accept well-masked strings with at
least 3 digits and 2 mask characters; otherwise accept when, after the OCR
letter substitution, the string holds 8 or 9 ASCII digits. -/
def is_valid_ssn (ssn : List Char) : Bool :=
  let compact := ssn.filter (fun c => !c.isWhitespace)
  let has_mask := compact.any maskC
  if has_mask &&
      decide (3 ≤ (compact.filter Char.isDigit).length ∧
              2 ≤ (compact.filter maskC).length) then
    true
  else
    let normalized := ssn.map ssnOcrDigit
    let digits := normalized.filter Char.isDigit
    decide (8 ≤ digits.length ∧ digits.length ≤ 9)

-- UTF-16 index map -----------------------------------------------------------

/-- One (byte offset, UTF-16 offset) entry per character boundary, in
increasing order, ending with the total lengths. -/
def buildMapGo (b u : Nat) : List Char → List (Nat × Nat)
  | [] => [(b, u)]
  | c :: t => (b, u) :: buildMapGo (b + utf8Len c) (u + utf16Len c) t

/-- scan.rs build_utf16_index_map (lines 16-28).  The source pushes (0, 0),
one entry per character, and the final totals, then sorts by byte key and
dedups by byte key; the pushes already occur in increasing byte order (each
character is at least one byte), so the sort is the identity and the dedup
merges only the duplicated (0, 0) entry of a nonempty text, leaving exactly
one entry per character boundary. -/
def build_utf16_index_map (s : List Char) : List (Nat × Nat) := buildMapGo 0 0 s

/-- scan.rs byte_to_utf16 (lines 30-41): binary search on the byte key; on
an exact hit the entry's value, otherwise the value of the greatest smaller
key, otherwise 0.  On the sorted map this is the value of the last entry
with key at most byte_pos, computed here as a left fold. -/
def byte_to_utf16 (map : List (Nat × Nat)) (byte_pos : Nat) : Nat :=
  map.foldl (fun acc e => if e.1 ≤ byte_pos then e.2 else acc) 0

-- The SSN and NPI stages of scan_all_identifiers ------------------------------

/-- One regex match as the stage code sees it: byte offsets (regex matches
always fall on character boundaries, so these are the UTF-8 lengths of the
character prefixes) and the matched text m.as_str(). -/
structure RMatch where
  byteStart : Nat
  byteEnd : Nat
  text : List Char
deriving DecidableEq

/-- The matches of find_iter together with their byte offsets and text. -/
def matchesOf (cs : List Char) (re : RE) : List RMatch :=
  (findIter cs re).map (fun t =>
    ⟨utf8Length (cs.take t.1), utf8Length (cs.take t.2.1), (cs.drop t.1).take (t.2.1 - t.1)⟩)

/-- The body of the SSN match loop (scan.rs 2015-2031): skip keys already in
ssn_seen, skip invalid SSNs, otherwise record the key and push the
detection.  The u64 key (start << 32) | end is start * 2^32 + end. -/
def ssnStep (source_map : List (Nat × Nat)) (acc : List IdentifierDetection × List Nat)
    (m : RMatch) : List IdentifierDetection × List Nat :=
  let start := byte_to_utf16 source_map m.byteStart
  let stop := byte_to_utf16 source_map m.byteEnd
  let key := start * 4294967296 + stop
  if acc.2.contains key then acc
  else if !is_valid_ssn m.text then acc
  else (acc.1 ++ [⟨"SSN", start, stop, m.text, 95/100, "Rust SSN"⟩], acc.2 ++ [key])

/-- One source pass of the SSN stage: build the source map, then fold the
match loop over every SSN pattern's matches. -/
def ssnPassSrc (src : List Char) (acc : List IdentifierDetection × List Nat) :
    List IdentifierDetection × List Nat :=
  let source_map := build_utf16_index_map src
  SSN_PATTERNS.foldl (fun acc re => (matchesOf src re).foldl (ssnStep source_map) acc) acc

/-- The SSN stage of scan_all_identifiers (scan.rs 2011-2038): two passes —
the raw text, then its OCR-normalized copy — sharing the ssn_seen dedupe
set; every detection it produces is pushed unchanged onto the function's
output. -/
def ssnStage (s : List Char) : List IdentifierDetection :=
  ([s, normalize_ocr_text s].foldl (fun acc src => ssnPassSrc src acc) ([], [])).1

/-- The body of the NPI capture loop (scan.rs 2041-2052): a detection per
match whose group 1 is present, at the group's offsets and text. -/
def npiStep (map : List (Nat × Nat)) (cs : List Char) (acc : List IdentifierDetection)
    (t : Nat × Nat × Option (Nat × Nat)) : List IdentifierDetection :=
  match t.2.2 with
  | some g =>
    acc ++ [⟨"NPI", byte_to_utf16 map (utf8Length (cs.take g.1)),
            byte_to_utf16 map (utf8Length (cs.take g.2)),
            (cs.drop g.1).take (g.2 - g.1), 95/100, "Rust NPI"⟩]
  | none => acc

/-- The NPI stage of scan_all_identifiers (scan.rs 2040-2052): captures_iter
over NPI_RE on the raw text; every detection it produces is pushed unchanged
onto the function's output. -/
def npiStage (s : List Char) : List IdentifierDetection :=
  (findIter s NPI_RE).foldl (npiStep (build_utf16_index_map s) s) []

/-- Modelled from the spec's words (C3): the substring at UTF-16 code-unit
offsets [a, b) — the characters lying entirely inside that code-unit
window. -/
def utf16SliceGo : List Char → Nat → Nat → Nat → List Char
  | [], _, _, _ => []
  | c :: t, u, a, b =>
    (if a ≤ u ∧ u + utf16Len c ≤ b then [c] else []) ++ utf16SliceGo t (u + utf16Len c) a b

/-- Modelled from the spec's words (C3): s.utf16_slice(a, b). -/
def specUtf16Slice (s : List Char) (a b : Nat) : List Char := utf16SliceGo s 0 a b

/-- Modelled from the spec's words (C4): the closed detection tag vocabulary
of the external-interface table. -/
def specTagVocabulary : List String :=
  ["SSN", "MRN", "CREDIT_CARD", "ACCOUNT", "LICENSE", "PASSPORT", "IBAN",
   "HEALTH_PLAN", "EMAIL", "PHONE", "FAX", "IP", "URL", "MAC_ADDRESS", "BITCOIN",
   "VEHICLE", "DEVICE", "BIOMETRIC", "DATE", "ZIPCODE", "ADDRESS", "CITY", "STATE",
   "COUNTY", "AGE", "RELATIVE_DATE", "PROVIDER_NAME", "NAME", "OCCUPATION", "CUSTOM"]

theorem clsRun_le_length (C : Char → Bool) (l : List Char) : clsRun C l ≤ l.length := by
  induction l with
  | nil => simp [clsRun]
  | cons c t ih =>
    rw [clsRun]
    split
    · simpa using ih
    · simp

theorem repTry_some {A : Type} (κ : Nat → Option A) (base : Nat) :
    ∀ (n : Nat) (r : A), repTry κ base n = some r →
      ∃ j, base ≤ j ∧ j ≤ base + n ∧ κ j = some r := by
  intro n
  induction n with
  | zero => intro r h; exact ⟨base, le_refl _, by omega, h⟩
  | succ k ih =>
    intro r h
    rw [repTry] at h
    split at h
    · rename_i r2 heq
      injection h with h
      subst h
      exact ⟨base + (k + 1), by omega, by omega, heq⟩
    · obtain ⟨j, h1, h2, h3⟩ := ih r h
      exact ⟨j, h1, by omega, h3⟩

theorem mrun_bound {A : Type} (cs : List Char) (re : RE) :
    ∀ (i : Nat) (cap : Option (Nat × Nat)) (κ : Nat → Option (Nat × Nat) → Option A) (r : A),
      i ≤ cs.length → mrun cs re i cap κ = some r →
      ∃ j cap2, i ≤ j ∧ j ≤ cs.length ∧ κ j cap2 = some r := by
  induction re with
  | eps =>
    intro i cap κ r hi h
    exact ⟨i, cap, le_refl i, hi, h⟩
  | cls C =>
    intro i cap κ r hi h
    rw [mrun] at h
    split at h
    · rename_i c hc
      split at h
      · have hlen := (List.getElem?_eq_some.mp hc).1
        exact ⟨i + 1, cap, Nat.le_succ i, by omega, h⟩
      · exact absurd h (by simp)
    · exact absurd h (by simp)
  | seq a b iha ihb =>
    intro i cap κ r hi h
    rw [mrun] at h
    obtain ⟨j, cap2, hij, hj, h2⟩ := iha i cap _ r hi h
    obtain ⟨k, cap3, hjk, hk, h3⟩ := ihb j cap2 κ r hj h2
    exact ⟨k, cap3, le_trans hij hjk, hk, h3⟩
  | alt a b iha ihb =>
    intro i cap κ r hi h
    rw [mrun] at h
    split at h
    · rename_i r2 heq
      injection h with h
      subst h
      exact iha i cap κ r2 hi heq
    · exact ihb i cap κ r hi h
  | rep C lo hi' =>
    intro i cap κ r hig h
    simp only [mrun] at h
    have havail : clsRun C (cs.drop i) ≤ cs.length - i := by
      have := clsRun_le_length C (cs.drop i)
      simpa using this
    cases hi' with
    | none =>
      simp only at h
      split at h
      · rename_i hle
        obtain ⟨j, hbase, hub, hκ⟩ := repTry_some _ _ _ _ h
        exact ⟨j, cap, by omega, by omega, hκ⟩
      · exact absurd h (by simp)
    | some hb =>
      simp only at h
      split at h
      · rename_i hle
        obtain ⟨j, hbase, hub, hκ⟩ := repTry_some _ _ _ _ h
        have hmin : Nat.min (clsRun C (cs.drop i)) hb ≤ clsRun C (cs.drop i) :=
          Nat.min_le_left _ _
        exact ⟨j, cap, by omega, by omega, hκ⟩
      · exact absurd h (by simp)
  | wordB =>
    intro i cap κ r hi h
    rw [mrun] at h
    split at h
    · exact ⟨i, cap, le_refl i, hi, h⟩
    · exact absurd h (by simp)
  | grp a iha =>
    intro i cap κ r hi h
    rw [mrun] at h
    obtain ⟨j, cap2, hij, hj, h2⟩ := iha i cap _ r hi h
    exact ⟨j, some (i, j), hij, hj, h2⟩

theorem findGo_bound (cs : List Char) (re : RE) :
    ∀ (fuel i i2 j : Nat) (cap : Option (Nat × Nat)),
      i + fuel ≤ cs.length + 1 →
      findGo cs re i fuel = some (i2, j, cap) →
      i ≤ i2 ∧ i2 ≤ j ∧ j ≤ cs.length := by
  intro fuel
  induction fuel with
  | zero => intro i i2 j cap hb h; simp [findGo] at h
  | succ f ih =>
    intro i i2 j cap hb h
    rw [findGo] at h
    split at h
    · rename_i j2 cap2 heq
      simp only [Option.some.injEq, Prod.mk.injEq] at h
      obtain ⟨rfl, rfl, rfl⟩ := h
      rw [anchored] at heq
      obtain ⟨j', cap', hij, hj, hsome⟩ :=
        mrun_bound cs re i none (fun j cap => some (j, cap)) (j2, cap2) (by omega) heq
      simp only [Option.some.injEq, Prod.mk.injEq] at hsome
      obtain ⟨rfl, -⟩ := hsome
      exact ⟨le_refl _, hij, hj⟩
    · have := ih (i + 1) i2 j cap (by omega) h
      exact ⟨by omega, this.2.1, this.2.2⟩

theorem findIterGo_bound (cs : List Char) (re : RE) :
    ∀ (fuel pos : Nat) (t : Nat × Nat × Option (Nat × Nat)),
      t ∈ findIterGo cs re pos fuel → t.1 ≤ t.2.1 ∧ t.2.1 ≤ cs.length := by
  intro fuel
  induction fuel with
  | zero => intro pos t ht; simp [findIterGo] at ht
  | succ f ih =>
    intro pos t ht
    rw [findIterGo] at ht
    split at ht
    · simp at ht
    · rename_i i j cap heq
      rcases List.mem_cons.mp ht with rfl | ht2
      · by_cases hp : pos ≤ cs.length + 1
        · have := findGo_bound cs re _ pos i j cap (by omega) heq
          exact ⟨this.2.1, this.2.2⟩
        · have h0 : cs.length + 1 - pos = 0 := by omega
          rw [h0] at heq
          simp [findGo] at heq
      · exact ih _ t ht2

theorem findIter_bound (cs : List Char) (re : RE) :
    ∀ t ∈ findIter cs re, t.1 ≤ t.2.1 ∧ t.2.1 ≤ cs.length :=
  fun t ht => findIterGo_bound cs re _ 0 t ht

theorem matchesOf_spec (cs : List Char) (re : RE) :
    ∀ m ∈ matchesOf cs re, ∃ i j, i ≤ j ∧ j ≤ cs.length ∧
      m = ⟨utf8Length (cs.take i), utf8Length (cs.take j), (cs.drop i).take (j - i)⟩ := by
  intro m hm
  simp only [matchesOf, List.mem_map] at hm
  obtain ⟨t, ht, rfl⟩ := hm
  obtain ⟨h1, h2⟩ := findIter_bound cs re t ht
  exact ⟨t.1, t.2.1, h1, h2, rfl⟩

theorem utf8Length_cons (c : Char) (l : List Char) :
    utf8Length (c :: l) = utf8Len c + utf8Length l := by
  simp [utf8Length]

theorem utf16Length_cons (c : Char) (l : List Char) :
    utf16Length (c :: l) = utf16Len c + utf16Length l := by
  simp [utf16Length]

theorem buildMapGo_key_ge (s : List Char) :
    ∀ (b u : Nat), ∀ e ∈ buildMapGo b u s, b ≤ e.1 := by
  induction s with
  | nil =>
    intro b u e he
    simp only [buildMapGo, List.mem_singleton] at he
    subst he; exact le_refl b
  | cons c t ih =>
    intro b u e he
    rw [buildMapGo] at he
    rcases List.mem_cons.mp he with rfl | he2
    · exact le_refl b
    · have := ih (b + utf8Len c) (u + utf16Len c) e he2
      omega

theorem foldl_no_hit (tgt : Nat) :
    ∀ (l : List (Nat × Nat)) (acc : Nat), (∀ e ∈ l, ¬ e.1 ≤ tgt) →
      l.foldl (fun acc e => if e.1 ≤ tgt then e.2 else acc) acc = acc := by
  intro l
  induction l with
  | nil => intro acc h; rfl
  | cons e t ih =>
    intro acc h
    rw [List.foldl_cons, if_neg (h e (List.mem_cons_self e t))]
    exact ih acc (fun e2 he2 => h e2 (List.mem_cons_of_mem e he2))

theorem byteGo_boundary (s : List Char) :
    ∀ (i b u acc : Nat), i ≤ s.length →
      (buildMapGo b u s).foldl
          (fun acc e => if e.1 ≤ b + utf8Length (s.take i) then e.2 else acc) acc
        = u + utf16Length (s.take i) := by
  induction s with
  | nil =>
    intro i b u acc hi
    have hz : i = 0 := by simpa using hi
    subst hz
    simp [buildMapGo, utf8Length, utf16Length]
  | cons c t ih =>
    intro i b u acc hi
    match i with
    | 0 =>
      rw [buildMapGo, List.foldl_cons]
      simp only [List.take_zero]
      rw [if_pos (by simp [utf8Length])]
      rw [foldl_no_hit _ _ _ ?_]
      · simp [utf16Length]
      · intro e he
        have hge := buildMapGo_key_ge t (b + utf8Len c) (u + utf16Len c) e he
        have := utf8Len_pos c
        simp only [utf8Length, List.map_nil, List.sum_nil]
        omega
    | i' + 1 =>
      have htgt : b + utf8Length ((c :: t).take (i' + 1)) =
          (b + utf8Len c) + utf8Length (t.take i') := by
        rw [List.take_succ_cons, utf8Length_cons]; omega
      rw [buildMapGo, List.foldl_cons, htgt]
      rw [if_pos (by have := utf8Len_pos c; omega)]
      rw [ih i' (b + utf8Len c) (u + utf16Len c) u (by simpa using hi)]
      rw [List.take_succ_cons, utf16Length_cons]
      omega

theorem byte_to_utf16_boundary (s : List Char) (i : Nat) (hi : i ≤ s.length) :
    byte_to_utf16 (build_utf16_index_map s) (utf8Length (s.take i)) =
      utf16Length (s.take i) := by
  have h := byteGo_boundary s i 0 0 0 hi
  simpa [byte_to_utf16, build_utf16_index_map] using h

theorem utf16Length_take_mono (s : List Char) (i j : Nat) (hij : i ≤ j) :
    utf16Length (s.take i) ≤ utf16Length (s.take j) := by
  conv_rhs => rw [← List.take_append_drop i (s.take j)]
  rw [ScanStream.utf16Length_append, List.take_take, min_eq_left hij]
  omega

theorem sliceGo_nil (t : List Char) :
    ∀ (u a b : Nat), b ≤ u → utf16SliceGo t u a b = [] := by
  induction t with
  | nil => intro u a b hb; rfl
  | cons c l ih =>
    intro u a b hb
    rw [utf16SliceGo]
    have := utf16Len_pos c
    rw [if_neg (by omega)]
    simpa using ih (u + utf16Len c) a b (by omega)

theorem sliceGo_take (t : List Char) :
    ∀ (u a j : Nat), a ≤ u → j ≤ t.length →
      utf16SliceGo t u a (u + utf16Length (t.take j)) = t.take j := by
  induction t with
  | nil => intro u a j ha hj; simp [utf16SliceGo]
  | cons c l ih =>
    intro u a j ha hj
    match j with
    | 0 =>
      simp only [List.take_zero, utf16Length, List.map_nil, List.sum_nil]
      rw [utf16SliceGo]
      have := utf16Len_pos c
      rw [if_neg (by omega)]
      simpa using sliceGo_nil l (u + utf16Len c) a (u + 0) (by omega)
    | j' + 1 =>
      rw [List.take_succ_cons, utf16Length_cons, utf16SliceGo]
      rw [if_pos (by omega)]
      have hb : u + (utf16Len c + utf16Length (l.take j')) =
          (u + utf16Len c) + utf16Length (l.take j') := by omega
      rw [hb, ih (u + utf16Len c) a j' (by omega) (by simpa using hj)]
      rfl

theorem sliceGo_aligned (s : List Char) :
    ∀ (u i j : Nat), i ≤ j → j ≤ s.length →
      utf16SliceGo s u (u + utf16Length (s.take i)) (u + utf16Length (s.take j)) =
        (s.drop i).take (j - i) := by
  induction s with
  | nil => intro u i j hij hj; simp [utf16SliceGo]
  | cons c l ih =>
    intro u i j hij hj
    match i with
    | 0 =>
      have h := sliceGo_take (c :: l) u u j (le_refl u) hj
      simpa [utf16Length] using h
    | i' + 1 =>
      obtain ⟨j', rfl⟩ : ∃ j', j = j' + 1 := ⟨j - 1, by omega⟩
      rw [List.take_succ_cons, List.take_succ_cons, utf16Length_cons, utf16Length_cons,
        utf16SliceGo]
      have hpos := utf16Len_pos c
      rw [if_neg (by omega)]
      have ha : u + (utf16Len c + utf16Length (l.take i')) =
          (u + utf16Len c) + utf16Length (l.take i') := by omega
      have hb : u + (utf16Len c + utf16Length (l.take j')) =
          (u + utf16Len c) + utf16Length (l.take j') := by omega
      rw [ha, hb, ih (u + utf16Len c) i' j' (by omega) (by simpa using hj)]
      simp [List.drop_succ_cons]

theorem specUtf16Slice_aligned (s : List Char) (i j : Nat) (hij : i ≤ j)
    (hj : j ≤ s.length) :
    specUtf16Slice s (utf16Length (s.take i)) (utf16Length (s.take j)) =
      (s.drop i).take (j - i) := by
  have h := sliceGo_aligned s 0 i j hij hj
  simpa [specUtf16Slice] using h

/-- The single detection of the SSN stage on the text b23-45-6789 (found on
the OCR-normalized copy 623-45-6789). -/
def c3det : IdentifierDetection := ⟨"SSN", 0, 11, "623-45-6789".data, 95/100, "Rust SSN"⟩

/-- The single detection of the NPI stage on the text NPI 1234567890. -/
def c4det : IdentifierDetection := ⟨"NPI", 4, 14, "1234567890".data, 95/100, "Rust NPI"⟩

theorem foldl_out_mem {α β γ : Type} (step : β → α → β) (out : β → List γ)
    (Q : α → γ → Prop)
    (H : ∀ acc a, ∀ d ∈ out (step acc a), d ∈ out acc ∨ Q a d) :
    ∀ (l : List α) (acc : β), ∀ d ∈ out (l.foldl step acc),
      d ∈ out acc ∨ ∃ a ∈ l, Q a d := by
  intro l
  induction l with
  | nil => intro acc d hd; exact Or.inl hd
  | cons x t ih =>
    intro acc d hd
    rcases ih (step acc x) d hd with h | ⟨a, ha, hq⟩
    · rcases H acc x d h with h2 | h2
      · exact Or.inl h2
      · exact Or.inr ⟨x, List.mem_cons_self x t, h2⟩
    · exact Or.inr ⟨a, List.mem_cons_of_mem x ha, hq⟩

/-- The shape every detection of the SSN stage takes on the source copy it
was found in: an SSN tag, offsets obtained through byte_to_utf16 at
character-boundary byte positions, and the matched text. -/
def FromSrc (src : List Char) (d : IdentifierDetection) : Prop :=
  d.filter_type = "SSN" ∧ ∃ i j, i ≤ j ∧ j ≤ src.length ∧
    d.character_start = byte_to_utf16 (build_utf16_index_map src) (utf8Length (src.take i)) ∧
    d.character_end = byte_to_utf16 (build_utf16_index_map src) (utf8Length (src.take j)) ∧
    d.text = (src.drop i).take (j - i)

theorem ssnStep_mem (source_map : List (Nat × Nat))
    (acc : List IdentifierDetection × List Nat) (m : RMatch) :
    ∀ d ∈ (ssnStep source_map acc m).1, d ∈ acc.1 ∨
      d = ⟨"SSN", byte_to_utf16 source_map m.byteStart,
           byte_to_utf16 source_map m.byteEnd, m.text, 95/100, "Rust SSN"⟩ := by
  intro d hd
  simp only [ssnStep] at hd
  split at hd
  · exact Or.inl hd
  · split at hd
    · exact Or.inl hd
    · rcases List.mem_append.mp hd with h | h
      · exact Or.inl h
      · exact Or.inr (List.mem_singleton.mp h)

theorem ssnMatchFold_mem (src : List Char) (re : RE)
    (acc : List IdentifierDetection × List Nat) :
    ∀ d ∈ ((matchesOf src re).foldl (ssnStep (build_utf16_index_map src)) acc).1,
      d ∈ acc.1 ∨ FromSrc src d := by
  intro d hd
  rcases foldl_out_mem (ssnStep (build_utf16_index_map src)) (fun a => a.1)
      (fun m d => d = ⟨"SSN", byte_to_utf16 (build_utf16_index_map src) m.byteStart,
        byte_to_utf16 (build_utf16_index_map src) m.byteEnd, m.text, 95/100, "Rust SSN"⟩)
      (ssnStep_mem (build_utf16_index_map src)) (matchesOf src re) acc d hd with
    h | ⟨m, hm, rfl⟩
  · exact Or.inl h
  · obtain ⟨i, j, hij, hj, rfl⟩ := matchesOf_spec src re m hm
    exact Or.inr ⟨rfl, i, j, hij, hj, rfl, rfl, rfl⟩

theorem ssnPassSrc_mem (src : List Char) (acc : List IdentifierDetection × List Nat) :
    ∀ d ∈ (ssnPassSrc src acc).1, d ∈ acc.1 ∨ FromSrc src d := by
  intro d hd
  simp only [ssnPassSrc] at hd
  rcases foldl_out_mem
      (fun acc re => (matchesOf src re).foldl (ssnStep (build_utf16_index_map src)) acc)
      (fun a => a.1) (fun _ d => FromSrc src d)
      (fun acc re => ssnMatchFold_mem src re acc) SSN_PATTERNS acc d hd with
    h | ⟨_, _, hf⟩
  · exact Or.inl h
  · exact Or.inr hf

theorem ssnStage_from (s : List Char) :
    ∀ d ∈ ssnStage s, ∃ src, (src = s ∨ src = normalize_ocr_text s) ∧ FromSrc src d := by
  intro d hd
  rcases foldl_out_mem (fun acc src => ssnPassSrc src acc) (fun a => a.1)
      (fun src d => FromSrc src d)
      (fun acc src => ssnPassSrc_mem src acc)
      [s, normalize_ocr_text s] ([], []) d hd with h | ⟨src, hsrc, hf⟩
  · simp at h
  · refine ⟨src, ?_, hf⟩
    simpa using hsrc

/-- C3: a detection of the SSN stage of scan_all_identifiers whose text is
not the UTF-16 slice of the source at its offsets: the OCR pass matches the
normalized copy 623-45-6789 of the text b23-45-6789 and reports the
normalized text, not the original slice. -/
theorem C3_counterexample :
    ∃ d ∈ ssnStage "b23-45-6789".data,
      d.text ≠ specUtf16Slice "b23-45-6789".data d.character_start d.character_end := by
  decide

/-- C3 (amended): every detection of the SSN stage of scan_all_identifiers
has its text equal to the UTF-16 slice — at its reported offsets — of the
copy of the input it was found in: the raw text for pass one, the
OCR-normalized copy for pass two; the offsets are ordered.  The raw-text
slice property claimed by the spec fails on the OCR pass. -/
theorem C3_amended (s : List Char) (d : IdentifierDetection) (hd : d ∈ ssnStage s) :
    ∃ src, (src = s ∨ src = normalize_ocr_text s) ∧
      d.character_start ≤ d.character_end ∧
      d.text = specUtf16Slice src d.character_start d.character_end := by
  obtain ⟨src, hsrc, -, i, j, hij, hj, hs, he, ht⟩ := ssnStage_from s d hd
  have hi : i ≤ src.length := le_trans hij hj
  refine ⟨src, hsrc, ?_, ?_⟩
  · rw [hs, he, byte_to_utf16_boundary src i hi, byte_to_utf16_boundary src j hj]
    exact utf16Length_take_mono src i j hij
  · rw [hs, he, byte_to_utf16_boundary src i hi, byte_to_utf16_boundary src j hj, ht]
    exact (specUtf16Slice_aligned src i j hij hj).symm

/-- Witness for C3_amended at a concrete input: the single detection of the
SSN stage on b23-45-6789 satisfies the amended slice property. -/
theorem C3_witness :
    c3det ∈ ssnStage "b23-45-6789".data ∧
    ∃ src, (src = "b23-45-6789".data ∨ src = normalize_ocr_text "b23-45-6789".data) ∧
      c3det.character_start ≤ c3det.character_end ∧
      c3det.text = specUtf16Slice src c3det.character_start c3det.character_end := by
  have hm : c3det ∈ ssnStage "b23-45-6789".data := by
    rw [show ssnStage "b23-45-6789".data = [c3det] from rfl]
    exact List.mem_singleton.mpr rfl
  exact ⟨hm, C3_amended "b23-45-6789".data c3det hm⟩

theorem npiStep_mem (map : List (Nat × Nat)) (cs : List Char)
    (acc : List IdentifierDetection) (t : Nat × Nat × Option (Nat × Nat)) :
    ∀ d ∈ npiStep map cs acc t, d ∈ acc ∨ d.filter_type = "NPI" := by
  intro d hd
  rw [npiStep] at hd
  split at hd
  · rcases List.mem_append.mp hd with h | h
    · exact Or.inl h
    · rw [List.mem_singleton.mp h]
      exact Or.inr rfl
  · exact Or.inl hd

/-- C4: the NPI stage of scan_all_identifiers pushes a detection whose
filter_type NPI is outside the closed tag vocabulary of the spec's
external-interface table. -/
theorem C4_counterexample :
    ∃ d ∈ npiStage "NPI 1234567890".data, d.filter_type ∉ specTagVocabulary := by
  decide

/-- C4 (amended): the SSN and NPI stages of scan_all_identifiers tag their
detections SSN and NPI respectively; NPI is not in the spec's closed
vocabulary, so the vocabulary invariant fails for the function's output. -/
theorem C4_amended (s : List Char) :
    (∀ d ∈ ssnStage s, d.filter_type = "SSN") ∧
    (∀ d ∈ npiStage s, d.filter_type = "NPI") := by
  constructor
  · intro d hd
    obtain ⟨src, -, hft, -⟩ := ssnStage_from s d hd
    exact hft
  · intro d hd
    rw [npiStage] at hd
    rcases foldl_out_mem (npiStep (build_utf16_index_map s) s) (fun a => a)
        (fun _ d => d.filter_type = "NPI")
        (npiStep_mem (build_utf16_index_map s) s)
        (findIter s NPI_RE) [] d hd with h | ⟨_, _, h⟩
    · simp at h
    · exact h

/-- Witness for C4_amended at a concrete input: the NPI detection on
NPI 1234567890 is tagged NPI. -/
theorem C4_witness : c4det.filter_type = "NPI" := by
  have hm : c4det ∈ npiStage "NPI 1234567890".data := by
    rw [show npiStage "NPI 1234567890".data = [c4det] from rfl]
    exact List.mem_singleton.mpr rfl
  exact (C4_amended "NPI 1234567890".data).2 c4det hm

end Scan

end Vulpes
